import Mathlib

/-!
# Verification of the Plonky3 FRI / PCS core

Shallow embedding of the repository's three core source files:

* `src/circle/src/folding.rs` — circle-domain folding and the circle bit-reversal
  permutation;
* `src/dft/src/radix_2_dit_parallel.rs` — the parallel radix-2 DIT FFT engine with
  twiddle memoization and the coset LDE;
* `src/fri/src/two_adic_pcs.rs` — the two-adic FRI polynomial commitment
  orchestration (`open_multi_batches`, `verify_multi_batches`, `get_cached_powers`).

Pure functions are translated into Lean functions over an abstract field `F`
(the field/extension-field library is an external collaborator, treated as a black
box satisfying the field axioms).  Matrices are embedded column-wise: every row
operation of the source acts identically and independently on each column, so a
matrix is a function from row index (and column index, where needed) to `F`.
Machine indices are `Nat`.
-/

namespace Plonky3

/-- `p3_util::reverse_bits_len(x, bits)` (external utility crate; the spec defines it as
the "permutation reversing the binary digits of an index over a fixed width").
Arguments are flipped (`bits` first) for structural recursion: the low `bits` binary
digits of `x` are reversed. -/
def reverseBitsLen : Nat → Nat → Nat
  | 0, _ => 0
  | bits + 1, x => x % 2 * 2 ^ bits + reverseBitsLen bits (x / 2)

theorem reverseBitsLen_lt (bits x : Nat) : reverseBitsLen bits x < 2 ^ bits := by
  induction bits generalizing x with
  | zero => simp [reverseBitsLen]
  | succ n ih =>
    have h1 : x % 2 ≤ 1 := Nat.le_of_lt_succ (Nat.mod_lt _ (by norm_num))
    have h2 : x % 2 * 2 ^ n ≤ 1 * 2 ^ n := Nat.mul_le_mul_right _ h1
    have h3 := ih (x / 2)
    have h4 : (2 : Nat) ^ (n + 1) = 2 ^ n * 2 := pow_succ 2 n
    simp only [reverseBitsLen]
    omega

/-- Splitting a number into low `a` bits and the rest reverses blockwise. -/
theorem reverseBitsLen_add (a k lo hi : Nat) (hlo : lo < 2 ^ a) :
    reverseBitsLen (a + k) (lo + 2 ^ a * hi) =
      reverseBitsLen a lo * 2 ^ k + reverseBitsLen k hi := by
  induction a generalizing lo with
  | zero =>
    have : lo = 0 := by omega
    subst this
    simp [reverseBitsLen]
  | succ n ih =>
    have hsucc : n + 1 + k = (n + k) + 1 := by omega
    rw [hsucc]
    have hmod : (lo + 2 ^ (n + 1) * hi) % 2 = lo % 2 := by
      have : lo + 2 ^ (n + 1) * hi = lo + 2 * (2 ^ n * hi) := by ring
      rw [this, Nat.add_mul_mod_self_left]
    have hdiv : (lo + 2 ^ (n + 1) * hi) / 2 = lo / 2 + 2 ^ n * hi := by
      have : lo + 2 ^ (n + 1) * hi = lo + 2 * (2 ^ n * hi) := by ring
      rw [this, Nat.add_mul_div_left _ _ (by norm_num)]
    have hlo2 : lo / 2 < 2 ^ n := by
      have h4 : (2 : Nat) ^ (n + 1) = 2 ^ n * 2 := pow_succ 2 n
      omega
    simp only [reverseBitsLen, hmod, hdiv]
    rw [ih _ hlo2]
    have hpk : (2 : Nat) ^ (n + k) = 2 ^ n * 2 ^ k := pow_add 2 n k
    rw [hpk]
    ring

theorem reverseBitsLen_one (c : Nat) (h : c < 2) : reverseBitsLen 1 c = c := by
  interval_cases c <;> rfl

/-- `reverse_bits_len` is an involution on `[0, 2^bits)`. -/
theorem reverseBitsLen_reverseBitsLen (bits x : Nat) (hx : x < 2 ^ bits) :
    reverseBitsLen bits (reverseBitsLen bits x) = x := by
  induction bits generalizing x with
  | zero =>
    have : x = 0 := by simpa using hx
    subst this; rfl
  | succ n ih =>
    have hx2 : x / 2 < 2 ^ n := by
      have h4 : (2 : Nat) ^ (n + 1) = 2 ^ n * 2 := pow_succ 2 n
      omega
    have hr : reverseBitsLen n (x / 2) < 2 ^ n := reverseBitsLen_lt n (x / 2)
    conv_lhs => rw [show reverseBitsLen (n + 1) x
      = x % 2 * 2 ^ n + reverseBitsLen n (x / 2) from rfl]
    rw [show x % 2 * 2 ^ n + reverseBitsLen n (x / 2)
      = reverseBitsLen n (x / 2) + 2 ^ n * (x % 2) from by ring]
    rw [reverseBitsLen_add n 1 _ _ hr, ih _ hx2,
      reverseBitsLen_one _ (Nat.mod_lt _ (by norm_num))]
    omega

/-- One step of the xor loop shared by `circle_bitrev_idx` and `circle_bitrev_idx_inv`
(`src/circle/src/folding.rs`): if bit `i` of the index is set, xor in the low-`i`-bits
mask `2^i - 1`. -/
def circleBitrevStep (i idx : Nat) : Nat :=
  if idx.testBit i then idx ^^^ (2 ^ i - 1) else idx

theorem circleBitrevStep_lt {i bits idx : Nat} (hi : i < bits) (h : idx < 2 ^ bits) :
    circleBitrevStep i idx < 2 ^ bits := by
  unfold circleBitrevStep
  split
  · refine Nat.xor_lt_two_pow h ?_
    calc 2 ^ i - 1 < 2 ^ i := Nat.sub_lt (pow_pos (by norm_num) i) (by norm_num)
    _ ≤ 2 ^ bits := Nat.pow_le_pow_right (by norm_num) (le_of_lt hi)
  · exact h

theorem circleBitrevStep_involution (i idx : Nat) :
    circleBitrevStep i (circleBitrevStep i idx) = idx := by
  unfold circleBitrevStep
  by_cases h : idx.testBit i
  · have hm : (2 ^ i - 1).testBit i = false :=
      Nat.testBit_lt_two_pow (Nat.sub_lt (pow_pos (by norm_num) i) (by norm_num))
    have hxor : (idx ^^^ (2 ^ i - 1)).testBit i = true := by
      simp [Nat.testBit_xor, h, hm]
    simp only [h, if_true, hxor]
    simp [Nat.xor_assoc]
  · simp [h]

theorem foldl_circleBitrevStep_reverse (l : List Nat) (x : Nat) :
    l.reverse.foldl (fun a i => circleBitrevStep i a)
      (l.foldl (fun a i => circleBitrevStep i a) x) = x := by
  induction l generalizing x with
  | nil => rfl
  | cons i t ih =>
    simp only [List.foldl_cons, List.reverse_cons, List.foldl_append, List.foldl_nil]
    rw [ih (circleBitrevStep i x), circleBitrevStep_involution]

theorem foldl_circleBitrevStep_lt (bits : Nat) (l : List Nat) (hl : ∀ i ∈ l, i < bits)
    (x : Nat) (hx : x < 2 ^ bits) :
    l.foldl (fun a i => circleBitrevStep i a) x < 2 ^ bits := by
  induction l generalizing x with
  | nil => exact hx
  | @cons i t ih =>
    exact ih (fun j hj => hl j (List.mem_cons_of_mem _ hj)) _
      (circleBitrevStep_lt (hl i (List.mem_cons_self _ _)) hx)

/-- `circle_bitrev_idx` (`src/circle/src/folding.rs`, lines 116–124): ordinary
bit-reversal of the index, then for bit positions low→high, if bit `i` is set,
xor the low `i` bits. -/
def circle_bitrev_idx (idx bits : Nat) : Nat :=
  (List.range bits).foldl (fun a i => circleBitrevStep i a) (reverseBitsLen bits idx)

/-- `circle_bitrev_idx_inv` (lines 126–133): the same xor steps for bit positions
high→low, then ordinary bit-reversal. -/
def circle_bitrev_idx_inv (idx bits : Nat) : Nat :=
  reverseBitsLen bits ((List.range bits).reverse.foldl (fun a i => circleBitrevStep i a) idx)

theorem circle_bitrev_idx_lt (idx bits : Nat) : circle_bitrev_idx idx bits < 2 ^ bits :=
  foldl_circleBitrevStep_lt bits _ (fun _ hi => List.mem_range.mp hi) _
    (reverseBitsLen_lt bits idx)

theorem circle_bitrev_idx_inv_lt (idx bits : Nat) :
    circle_bitrev_idx_inv idx bits < 2 ^ bits :=
  reverseBitsLen_lt _ _

theorem circle_bitrev_inv_idx (idx bits : Nat) (h : idx < 2 ^ bits) :
    circle_bitrev_idx_inv (circle_bitrev_idx idx bits) bits = idx := by
  unfold circle_bitrev_idx circle_bitrev_idx_inv
  rw [foldl_circleBitrevStep_reverse]
  exact reverseBitsLen_reverseBitsLen _ _ h

theorem circle_bitrev_idx_inv_idx (idx bits : Nat) (h : idx < 2 ^ bits) :
    circle_bitrev_idx (circle_bitrev_idx_inv idx bits) bits = idx := by
  unfold circle_bitrev_idx circle_bitrev_idx_inv
  rw [reverseBitsLen_reverseBitsLen _ _
    (foldl_circleBitrevStep_lt bits _ (fun i hi => by
      simpa using List.mem_range.mp (List.mem_reverse.mp hi)) _ h)]
  have h2 := foldl_circleBitrevStep_reverse (List.range bits).reverse idx
  rwa [List.reverse_reverse] at h2

/-- Structurally recursive base-2 logarithm (the first argument is fuel);
agrees with `Nat.log2` whenever `n ≤ fuel`. -/
def log2Aux : Nat → Nat → Nat
  | 0, _ => 0
  | fuel + 1, n => if n ≥ 2 then log2Aux fuel (n / 2) + 1 else 0

theorem log2Aux_eq (fuel n : Nat) (h : n ≤ fuel) : log2Aux fuel n = Nat.log2 n := by
  induction fuel generalizing n with
  | zero =>
    have : n = 0 := by omega
    subst this
    simp [log2Aux, Nat.log2]
  | succ m ih =>
    rw [log2Aux]
    conv_rhs => rw [Nat.log2]
    by_cases h2 : n ≥ 2
    · have : n / 2 ≤ m := by omega
      simp only [h2, if_true, ih _ this]
    · simp [h2]

/-- Modelled from the spec: `p3_util::log2_strict_usize` is not under `src/`.  Per the
spec (§3 "height is always a power of two", §7 "PreconditionViolation: non-power-of-two
height ... Fatal"), a non-power-of-two argument is a fatal precondition violation,
modelled as `none`; otherwise the exact base-2 logarithm is returned. -/
def log2Strict (n : Nat) : Option Nat :=
  if 2 ^ log2Aux n n = n then some (log2Aux n n) else none

theorem log2Strict_two_pow (bits : Nat) : log2Strict (2 ^ bits) = some bits := by
  simp [log2Strict, log2Aux_eq _ _ (le_refl _), Nat.log2_two_pow]

/-- `circle_bitrev_permute` (`src/circle/src/folding.rs`, lines 136–141):
`out[i] = xs[circle_bitrev_idx(i, bits)]` with `bits = log2_strict_usize(xs.len())`;
the precondition failure on a non-power-of-two length is surfaced as `none`. -/
def circle_bitrev_permute {α : Type} [Inhabited α] (xs : List α) : Option (List α) :=
  (log2Strict xs.length).map fun bits =>
    (List.range xs.length).map fun i => xs.getD (circle_bitrev_idx i bits) default

theorem circle_bitrev_permute_eq {α : Type} [Inhabited α] (xs : List α) (bits : Nat)
    (h : xs.length = 2 ^ bits) :
    circle_bitrev_permute xs =
      some ((List.range (2 ^ bits)).map fun i =>
        xs.getD (circle_bitrev_idx i bits) default) := by
  rw [circle_bitrev_permute, h, log2Strict_two_pow, Option.map_some']

theorem list_eq_range_map_getD {α : Type} [Inhabited α] (xs : List α) :
    xs = (List.range xs.length).map fun i => xs.getD i default := by
  apply List.ext_getElem (by simp)
  intro i h1 h2
  simp [List.getD_eq_getElem?_getD, List.getElem?_eq_getElem h1]

theorem range_map_circle_bitrev_perm (bits : Nat) :
    ((List.range (2 ^ bits)).map fun i => circle_bitrev_idx i bits).Perm
      (List.range (2 ^ bits)) := by
  apply List.perm_of_nodup_nodup_toFinset_eq
  · refine List.Nodup.map_on ?_ (List.nodup_range _)
    intro x hx y hy hxy
    have h1 := circle_bitrev_inv_idx x bits (List.mem_range.mp hx)
    have h2 := circle_bitrev_inv_idx y bits (List.mem_range.mp hy)
    rw [← h1, ← h2, hxy]
  · exact List.nodup_range _
  · ext a
    simp only [List.mem_toFinset, List.mem_map, List.mem_range]
    constructor
    · rintro ⟨b, _, rfl⟩
      exact circle_bitrev_idx_lt b bits
    · intro ha
      exact ⟨circle_bitrev_idx_inv a bits, circle_bitrev_idx_inv_lt a bits,
        circle_bitrev_idx_inv_idx a bits ha⟩

/-- **C10.** `circle_bitrev_idx (·, bits)` is a bijection on `[0, 2^bits)` with
two-sided inverse `circle_bitrev_idx_inv (·, bits)`; consequently
`circle_bitrev_permute` on any list of power-of-two length is a permutation of that
list, losing and duplicating no element. -/
theorem circle_bitrev_bijection :
    (∀ bits idx, idx < 2 ^ bits →
      circle_bitrev_idx idx bits < 2 ^ bits ∧
      circle_bitrev_idx_inv idx bits < 2 ^ bits ∧
      circle_bitrev_idx_inv (circle_bitrev_idx idx bits) bits = idx ∧
      circle_bitrev_idx (circle_bitrev_idx_inv idx bits) bits = idx) ∧
    ∀ {α : Type} [Inhabited α] (xs : List α) (bits), xs.length = 2 ^ bits →
      ∃ ys, circle_bitrev_permute xs = some ys ∧ ys.Perm xs := by
  constructor
  · intro bits idx h
    exact ⟨circle_bitrev_idx_lt idx bits, circle_bitrev_idx_inv_lt idx bits,
      circle_bitrev_inv_idx idx bits h, circle_bitrev_idx_inv_idx idx bits h⟩
  · intro α _ xs bits h
    refine ⟨_, circle_bitrev_permute_eq xs bits h, ?_⟩
    have hxs : xs = (List.range (2 ^ bits)).map fun i => xs.getD i default := by
      conv_lhs => rw [list_eq_range_map_getD xs, h]
    have hmm : ((List.range (2 ^ bits)).map fun i =>
        xs.getD (circle_bitrev_idx i bits) default)
        = ((List.range (2 ^ bits)).map fun i => circle_bitrev_idx i bits).map
            fun i => xs.getD i default := by
      rw [List.map_map]
      rfl
    rw [hmm]
    conv_rhs => rw [hxs]
    exact (range_map_circle_bitrev_perm bits).map _

/-- Witness for C10 at `bits = 3`, `idx = 5` and a concrete length-4 list. -/
theorem circle_bitrev_bijection_witness :
    (5 < 2 ^ 3 ∧ circle_bitrev_idx_inv (circle_bitrev_idx 5 3) 3 = 5) ∧
    (([1, 2, 3, 4] : List Nat).length = 2 ^ 2 ∧
      ∃ ys, circle_bitrev_permute ([1, 2, 3, 4] : List Nat) = some ys ∧
        ys.Perm [1, 2, 3, 4]) :=
  ⟨⟨by decide, (circle_bitrev_bijection.1 3 5 (by decide)).2.2.1⟩,
   ⟨by decide, circle_bitrev_bijection.2 [1, 2, 3, 4] 2 (by decide)⟩⟩

/-- **C8, counterexample.** The claim "`circle_bitrev_permute` is the identity for
every list of length at most 2" fails at the empty list: `log2_strict_usize(0)` is a
precondition violation (0 is not a power of two), so the permutation does not return
the list unchanged. -/
theorem circle_bitrev_permute_nil_not_identity :
    circle_bitrev_permute ([] : List Nat) ≠ some [] := by
  decide

/-- **C8 (amended).** The circle bit-reversal permutation satisfies the concrete
examples `permute([0,1]) = [0,1]`, `permute([0,1,2,3]) = [0,3,1,2]`,
`permute([0..8]) = [0,7,3,4,1,6,2,5]`, and is the identity for every list of
power-of-two length at most 2 (i.e. length 1 or 2; the empty list is a
precondition violation, not the identity). -/
theorem circle_bitrev_permute_spec :
    circle_bitrev_permute [0, 1] = some [0, 1] ∧
    circle_bitrev_permute [0, 1, 2, 3] = some [0, 3, 1, 2] ∧
    circle_bitrev_permute [0, 1, 2, 3, 4, 5, 6, 7] = some [0, 7, 3, 4, 1, 6, 2, 5] ∧
    ∀ {α : Type} [Inhabited α] (xs : List α), xs.length = 1 ∨ xs.length = 2 →
      circle_bitrev_permute xs = some xs := by
  refine ⟨by decide, by decide, by decide, ?_⟩
  intro α _ xs h
  rcases h with h | h
  · obtain ⟨a, rfl⟩ : ∃ a, xs = [a] := by
      cases xs with
      | nil => simp at h
      | cons a t =>
        cases t with
        | nil => exact ⟨a, rfl⟩
        | cons b t' => simp at h
    rfl
  · obtain ⟨a, b, rfl⟩ : ∃ a b, xs = [a, b] := by
      cases xs with
      | nil => simp at h
      | cons a t =>
        cases t with
        | nil => simp at h
        | cons b t' =>
          cases t' with
          | nil => exact ⟨a, b, rfl⟩
          | cons c t'' => simp at h
    have h1 : log2Strict ([a, b] : List α).length = some 1 := by
      show log2Strict 2 = some 1
      decide
    rw [circle_bitrev_permute, h1, Option.map_some']
    have c0 : circle_bitrev_idx 0 1 = 0 := by decide
    have c1 : circle_bitrev_idx 1 1 = 1 := by decide
    simp [List.range_succ, c0, c1]

/-- Witness for C8 (amended) at a concrete length-2 list. -/
theorem circle_bitrev_permute_spec_witness :
    (([10, 20] : List Nat).length = 1 ∨ ([10, 20] : List Nat).length = 2) ∧
      circle_bitrev_permute ([10, 20] : List Nat) = some [10, 20] :=
  ⟨Or.inr rfl, circle_bitrev_permute_spec.2.2.2 [10, 20] (Or.inr rfl)⟩

section CircleFold

variable {F EF : Type} [Field F] [Field EF] [Algebra F EF] [Inhabited F]

/-- `batch_multiplicative_inverse` (field library, external black box): elementwise
multiplicative inverse of a vector of field elements. -/
def batch_multiplicative_inverse (xs : List F) : List F := xs.map (·⁻¹)

/-- The shared circle fold kernel `fold` (`src/circle/src/folding.rs`, lines 96–111):
zip the rows of a width-2 matrix with the twiddles and map
`sum = lo + hi; diff = (lo - hi) * t; (sum + beta * diff).halve()`.
A width-2 matrix over the extension field `EF` is embedded as its list of rows
(pairs); the twiddles stay in the base field `F` and act through the algebra map;
`halve` (field library) is multiplication by `2⁻¹`. -/
def fold (evals : List (EF × EF)) (beta : EF) (twiddles : List F) : List EF :=
  (evals.zip twiddles).map fun p =>
    let lo := p.1.1
    let hi := p.1.2
    let sum := lo + hi
    let diff := (lo - hi) * algebraMap F EF p.2
    (sum + beta * diff) * (2 : EF)⁻¹

theorem fold_getD (evals : List (EF × EF)) (beta : EF) (twiddles : List F) (i : Nat)
    (h1 : i < evals.length) (h2 : i < twiddles.length) :
    (fold evals beta twiddles).getD i 0 =
      ((evals.getD i (0, 0)).1 + (evals.getD i (0, 0)).2
        + beta * (((evals.getD i (0, 0)).1 - (evals.getD i (0, 0)).2)
          * algebraMap F EF (twiddles.getD i default))) * (2 : EF)⁻¹ := by
  have hz : i < (evals.zip twiddles).length := by
    simp [List.length_zip]
    omega
  simp [fold, List.getD_eq_getElem?_getD, List.getElem?_eq_getElem, hz, h1, h2,
    List.getElem_zip]

theorem circle_bitrev_permute_getD {α : Type} [Inhabited α] (xs : List α) (bits : Nat)
    (h : xs.length = 2 ^ bits) (ys : List α) (hys : circle_bitrev_permute xs = some ys)
    (i : Nat) (hi : i < 2 ^ bits) :
    ys.getD i default = xs.getD (circle_bitrev_idx i bits) default := by
  rw [circle_bitrev_permute_eq xs bits h, Option.some_inj] at hys
  subst hys
  simp [List.getD_eq_getElem?_getD, List.getElem?_map, List.getElem?_range, hi]

theorem batch_multiplicative_inverse_getD (xs : List F) (j : Nat) (hj : j < xs.length) :
    (batch_multiplicative_inverse xs).getD j default = (xs.getD j default)⁻¹ := by
  simp [batch_multiplicative_inverse, List.getD_eq_getElem?_getD, List.getElem?_map,
    List.getElem?_eq_getElem hj]

/-- **C4.**  For every width-2 evaluation matrix, challenge `β`, and row index `i`:
with the twiddle `t_i` taken from the circle-bit-reversal-permuted array of the
inverted domain coordinates (as `fold_bivariate` and `fold_matrix` build it:
`circle_bitrev_permute(batch_multiplicative_inverse(coords))`), the fold of row
`(lo, hi)` equals `((lo + hi) + β·((lo − hi)·t_i)) · (1/2)`, where
`t_i = coords[circle_bitrev_idx(i)]⁻¹`. -/
theorem fold_row_twiddle_formula (evals : List (EF × EF)) (beta : EF) (coords : List F)
    (bits : Nat) (hc : coords.length = 2 ^ bits) (he : evals.length = 2 ^ bits)
    (twiddles : List F)
    (htw : circle_bitrev_permute (batch_multiplicative_inverse coords) = some twiddles)
    (i : Nat) (hi : i < 2 ^ bits) :
    (fold evals beta twiddles).getD i 0 =
      ((evals.getD i (0, 0)).1 + (evals.getD i (0, 0)).2
        + beta * (((evals.getD i (0, 0)).1 - (evals.getD i (0, 0)).2)
          * algebraMap F EF ((coords.getD (circle_bitrev_idx i bits) default)⁻¹))) *
        (2 : EF)⁻¹ := by
  have hlb : (batch_multiplicative_inverse coords).length = 2 ^ bits := by
    simpa [batch_multiplicative_inverse] using hc
  have hlt : twiddles.length = 2 ^ bits := by
    rw [circle_bitrev_permute_eq _ bits hlb, Option.some_inj] at htw
    simp [← htw]
  rw [fold_getD evals beta twiddles i (by omega) (by omega)]
  rw [circle_bitrev_permute_getD _ bits hlb _ htw i hi]
  rw [batch_multiplicative_inverse_getD coords _ (by rw [hc]; exact circle_bitrev_idx_lt i bits)]

end CircleFold

instance fact_prime_five : Fact (Nat.Prime 5) := ⟨by norm_num⟩

/-- Witness for C4 over `F = EF = ZMod 5`, `bits = 1`, `i = 1`; the twiddle list is
passed as the (symbolic) value of the permutation, exactly as the theorem's
hypothesis demands. -/
theorem fold_row_twiddle_formula_witness :
    (([(2 : ZMod 5), 3] : List (ZMod 5)).length = 2 ^ 1 ∧
     ([((1 : ZMod 5), (2 : ZMod 5)), (3, 4)]).length = 2 ^ 1 ∧ 1 < 2 ^ 1) ∧
    (fold [((1 : ZMod 5), (2 : ZMod 5)), (3, 4)] (2 : ZMod 5)
        ((List.range (2 ^ 1)).map fun i =>
          (batch_multiplicative_inverse [(2 : ZMod 5), 3]).getD
            (circle_bitrev_idx i 1) default)).getD 1 0 =
      ((([((1 : ZMod 5), (2 : ZMod 5)), (3, 4)]).getD 1 (0, 0)).1
        + (([((1 : ZMod 5), (2 : ZMod 5)), (3, 4)]).getD 1 (0, 0)).2
        + 2 * (((([((1 : ZMod 5), (2 : ZMod 5)), (3, 4)]).getD 1 (0, 0)).1
            - (([((1 : ZMod 5), (2 : ZMod 5)), (3, 4)]).getD 1 (0, 0)).2)
          * algebraMap (ZMod 5) (ZMod 5)
            ((([(2 : ZMod 5), 3] : List (ZMod 5)).getD (circle_bitrev_idx 1 1) default)⁻¹))) *
        (2 : ZMod 5)⁻¹ :=
  ⟨⟨by decide, by decide, by decide⟩,
    fold_row_twiddle_formula [((1 : ZMod 5), (2 : ZMod 5)), (3, 4)] (2 : ZMod 5)
      [(2 : ZMod 5), 3] 1 (by decide) (by decide) _
      (circle_bitrev_permute_eq (batch_multiplicative_inverse [(2 : ZMod 5), 3]) 1
        (by decide)) 1 (by decide)⟩

section FoldRowMatrix

variable {F EF : Type} [Field F] [Field EF] [Algebra F EF] [Inhabited F]

/-- Modelled from the spec: `CircleDomain` (`src/circle/src/domain.rs`) is not under
`src/`.  The spec describes a circle domain of log-size `n` as "points on a fixed
curve over a field extension" (§3, glossary); the standard domain of size `2^n` is
the standard position coset `shift·⟨g_n⟩` with `shift = circle_two_adic_generator(n+1)`
and `g_n = circle_two_adic_generator(n)`, whose `j`-th point is
`shift * g_n^j = circle_two_adic_generator(n+1)^(2j+1)` — the enumeration under which
the circle bit-reversal makes "sibling pairs (points mapping to the same reduced
point) become adjacent" (§4.2).  Points are represented by their exponent with
respect to the domain's own `circle_two_adic_generator(n+1)` (the field library
guarantees `circle_two_adic_generator(k) = circle_two_adic_generator(k+1)^2`), so the
`j`-th point is the exponent `2*j + 1`. -/
def circleDomainStandardPointExp (j : Nat) : Nat := 2 * j + 1

/-- `CircleFriFolder::fold_row` (`src/circle/src/folding.rs`, lines 49–61):
`shift = circle_two_adic_generator(log_height + 3)`,
`g = circle_two_adic_generator(log_height + 2)`,
`orig_idx = circle_bitrev_idx(index, log_height)`,
`t = (shift * g.exp_u64(orig_idx)).real().inverse()`, then the shared fold formula
`(sum + beta * diff).halve()` on the two row entries.  In exponent representation
relative to `circle_two_adic_generator(log_height + 3)` the twiddle point is
`1 + 2 * orig_idx`; `creal e` is the external field library's real-coordinate
projection of `circle_two_adic_generator(log_height + 3) ^ e`. -/
def fold_row (creal : Nat → F) (index log_height : Nat) (beta : EF) (e0 e1 : EF) : EF :=
  let orig_idx := circle_bitrev_idx index log_height
  let t := (creal (1 + 2 * orig_idx))⁻¹
  let sum := e0 + e1
  let diff := (e0 - e1) * algebraMap F EF t
  (sum + beta * diff) * (2 : EF)⁻¹

/-- `CircleFriFolder::fold_matrix` (`src/circle/src/folding.rs`, lines 62–74): the
twiddles are the batch-inverted real coordinates of the first `height` points of
`CircleDomain::standard(log2(height) + 2)`, permuted by `circle_bitrev_permute`, fed
to the shared `fold` kernel.  That domain's shift is
`circle_two_adic_generator(log2(height) + 3)`, so `creal` is the same projection as
in `fold_row`. -/
def fold_matrix (creal : Nat → F) (beta : EF) (m : List (EF × EF)) : List EF :=
  let points := (List.range m.length).map fun j => creal (circleDomainStandardPointExp j)
  match circle_bitrev_permute (batch_multiplicative_inverse points) with
  | some twiddles => fold m beta twiddles
  | none => []

/-- **C5.**  For every width-2 matrix `m` of power-of-two height `2^logH`, every
challenge `β`, and every row index `i`, single-row folding and whole-matrix folding
agree exactly: `fold_row(i, logH, β, m[i]) = fold_matrix(β, m)[i]`. -/
theorem fold_row_fold_matrix_agree (creal : Nat → F) (beta : EF) (m : List (EF × EF))
    (logH : Nat) (hm : m.length = 2 ^ logH) (i : Nat) (hi : i < m.length) :
    fold_row creal i logH beta (m.getD i (0, 0)).1 (m.getD i (0, 0)).2
      = (fold_matrix creal beta m).getD i 0 := by
  have hpts : ((List.range m.length).map fun j =>
      creal (circleDomainStandardPointExp j)).length = 2 ^ logH := by
    simp [hm]
  have hcb := circle_bitrev_idx_lt i logH
  rw [fold_matrix]
  rw [circle_bitrev_permute_eq _ logH (by simpa [batch_multiplicative_inverse] using hpts)]
  rw [fold_row_twiddle_formula m beta _ logH hpts hm _
    (circle_bitrev_permute_eq _ logH (by simpa [batch_multiplicative_inverse] using hpts))
    i (by omega)]
  rw [fold_row]
  have hget : (((List.range m.length).map fun j =>
      creal (circleDomainStandardPointExp j)).getD (circle_bitrev_idx i logH) default)
      = creal (circleDomainStandardPointExp (circle_bitrev_idx i logH)) := by
    have : circle_bitrev_idx i logH < m.length := by omega
    simp [List.getD_eq_getElem?_getD, List.getElem?_map, List.getElem?_range, this]
  rw [hget, circleDomainStandardPointExp]
  ring_nf

/-- Witness for C5 over `F = EF = ZMod 5` with a concrete height-2 matrix. -/
theorem fold_row_fold_matrix_agree_witness :
    (([((1 : ZMod 5), (2 : ZMod 5)), (3, 4)]).length = 2 ^ 1 ∧
      1 < ([((1 : ZMod 5), (2 : ZMod 5)), (3, 4)]).length) ∧
    fold_row (fun e => (e : ZMod 5)) 1 1 (3 : ZMod 5)
        (([((1 : ZMod 5), (2 : ZMod 5)), (3, 4)]).getD 1 (0, 0)).1
        (([((1 : ZMod 5), (2 : ZMod 5)), (3, 4)]).getD 1 (0, 0)).2
      = (fold_matrix (fun e => (e : ZMod 5)) (3 : ZMod 5)
          [((1 : ZMod 5), (2 : ZMod 5)), (3, 4)]).getD 1 0 :=
  ⟨⟨by decide, by decide⟩,
    fold_row_fold_matrix_agree (fun e => (e : ZMod 5)) (3 : ZMod 5)
      [((1 : ZMod 5), (2 : ZMod 5)), (3, 4)] 1 (by decide) 1 (by decide)⟩

end FoldRowMatrix

/-- Modelled from the spec (§7): the typed rejection of FRI verification
(`VerificationErrorForFriConfig`, defined in `src/fri/src/verifier.rs`, not under
`src/`): "inclusion-proof mismatch, degree-bound violation, proof-of-work check
failure, transcript mismatch". -/
inductive VerificationError : Type where
  | inclusionProofMismatch : VerificationError
  | degreeBoundViolation : VerificationError
  | proofOfWorkFailure : VerificationError
  | transcriptMismatch : VerificationError
deriving DecidableEq

/-- `TwoAdicFriPcs::verify_multi_batches` (`src/fri/src/two_adic_pcs.rs`, lines
267–277), translated verbatim: the body ignores every argument (the intended check is
a commented-out `todo!()`) and returns `Ok(())` unconditionally.
`commitsAndPoints` carries the commitment and opening points per batch, `dims` the
matrix dimensions, `values` the claimed opened values, `proof` the FRI proof. -/
def verify_multi_batches {Commitment Challenge Proof : Type}
    (commitsAndPoints : List (Commitment × List (List Challenge)))
    (dims : List (List (Nat × Nat)))
    (values : List (List (List Challenge)))
    (proof : Proof) : Except VerificationError Unit :=
  Except.ok ()

/-- **C1 (code bug).**  The claim states that verification rejects every tampering of
an opened value or commitment with a typed `VerificationFailure`; the code's
`verify_multi_batches` is an unconditional `Ok(())` stub, so it accepts every input —
in particular every tampered one.  (The spec itself flags this: "the observed
multi-batch verification entry point unconditionally accepts; this is almost
certainly an incomplete placeholder, not intended behavior".) -/
theorem verify_multi_batches_accepts_everything {Commitment Challenge Proof : Type}
    (commitsAndPoints : List (Commitment × List (List Challenge)))
    (dims : List (List (Nat × Nat)))
    (values : List (List (List Challenge)))
    (proof : Proof) :
    verify_multi_batches commitsAndPoints dims values proof = Except.ok () := rfl

section OpenMultiBatches

variable {Val EF : Type} [Field Val] [Field EF] [Algebra Val EF] [Inhabited Val]

/-- The extension loop of `get_cached_powers` (`src/fri/src/two_adic_pcs.rs`, lines
280–290): `while cache.len() < start + count { cache.push(last * power) }`.  The
deficit is passed as structural fuel; `last().unwrap()` is modelled by `getLastD`
(the cache is never empty: it starts as `vec![one]`). -/
def extendCacheAux (power : EF) : Nat → List EF → List EF
  | 0, cache => cache
  | n + 1, cache => extendCacheAux power n (cache ++ [cache.getLastD 1 * power])

/-- `get_cached_powers(power, cache, start, count)`: extend the cache up to
`start + count` entries, return the new cache and the slice
`&cache[start..start + count]`. -/
def get_cached_powers (power : EF) (cache : List EF) (start count : Nat) :
    List EF × List EF :=
  let cache2 := extendCacheAux power (start + count - cache.length) cache
  (cache2, (cache2.drop start).take count)

/-- `cyclic_subgroup_coset_known_order` (field library, external): the coset
`shift * g^j` for `j < order`. -/
def cyclic_subgroup_coset (g shift : Val) (order : Nat) : List Val :=
  (List.range order).map fun j => shift * g ^ j

/-- `reverse_slice_index_bits` (`p3_util`, external): permute a power-of-two-length
slice by bit reversal, `out[i] = xs[reverse_bits_len(i, bits)]`; `bits` is the
base-2 logarithm of the length. -/
def reverse_slice_index_bits {α : Type} [Inhabited α] (xs : List α) (bits : Nat) :
    List α :=
  (List.range xs.length).map fun i => xs.getD (reverseBitsLen bits i) default

/-- The inner "for each column" loop of `open_multi_batches`
(`src/fri/src/two_adic_pcs.rs`, lines 223–231): over
`izip!(row, &values, alpha_pows)`,
`reduced_opening += alpha_pow * (p_at_x - p_at_point) * inv_denom`. -/
def reduceRow (row : List Val) (values alphaPows : List EF) (invDenom : EF)
    (acc : EF) : EF :=
  (row.zip (values.zip alphaPows)).foldl
    (fun a t => a + t.2.2 * (algebraMap Val EF t.1 - t.2.1) * invDenom) acc

/-- The "for each row" loop (lines 217–231): over
`izip!(mat.rows(), reduced_opening_for_log_height.iter_mut(), inv_denoms)`. -/
def reducePoint (mat : List (List Val)) (values alphaPows : List EF)
    (invDenoms : List EF) (bucket : List EF) : List EF :=
  ((mat.zip bucket).zip invDenoms).map fun t =>
    reduceRow t.1.1 values alphaPows t.2 t.1.2

/-- The prover-side state threaded through `open_multi_batches`:
the α-power cache (`cached_alpha_pows`), the per-log-height counter `num_reduced`,
and the per-log-height reduced-opening buckets (`reduced_openings`). -/
structure OpenState (EF : Type) where
  cache : List EF
  numReduced : Nat → Nat
  reducedOpenings : Nat → Option (List EF)

/-- One matrix of one round of `open_multi_batches`, with its external
collaborators: the committed LDE rows (`Val` entries), the matrix width, the
requested opening points, and the black-box coset-barycentric interpolation
`interpolate_coset` producing the claimed values `p(z)` per column. -/
structure MatOpenData (Val EF : Type) where
  rows : List (List Val)
  width : Nat
  points : List EF
  interp : EF → List EF

/-- One `(point, inv_denoms)` iteration (lines 196–236) for one matrix: compute the
batch-inverted denominators for `z`, interpolate the claimed values, fetch the α
powers `[num_reduced, num_reduced + width)` from the cache, accumulate into the
bucket, and advance `num_reduced` by the width.  State is
`(bucket, cache, num_reduced[log_height])`. -/
def openMatPointStep (alpha : EF) (subgroup : List Val) (interp : EF → List EF)
    (mat : List (List Val)) (width : Nat) (s : List EF × List EF × Nat) (z : EF) :
    List EF × List EF × Nat :=
  let invDenoms := batch_multiplicative_inverse
    (subgroup.map fun x => algebraMap Val EF x - z)
  let values := interp z
  let cp := get_cached_powers alpha s.2.1 s.2.2 width
  (reducePoint mat values cp.2 invDenoms s.1, cp.1, s.2.2 + width)

/-- One `(mat, points_for_mat)` iteration of `open_multi_batches` (lines 169–236):
`log_height = log2_strict(height)`; the subgroup is the bit-reversed coset
`coset_shift * ⟨two_adic_generator(log_height)⟩`; the bucket for `log_height` is
fetched or initialised to zeroes; then every requested point is processed in order.
`gen` is the field library's `two_adic_generator` family. -/
def openMat (alpha : EF) (gen : Nat → Val) (coset_shift : Val)
    (md : MatOpenData Val EF) (st : OpenState EF) : OpenState EF :=
  let height := md.rows.length
  let logHeight := log2Aux height height
  let subgroup := reverse_slice_index_bits
    (cyclic_subgroup_coset (gen logHeight) coset_shift height) logHeight
  let bucket0 := (st.reducedOpenings logHeight).getD (List.replicate height 0)
  let res := md.points.foldl
    (openMatPointStep alpha subgroup md.interp md.rows md.width)
    (bucket0, st.cache, st.numReduced logHeight)
  { cache := res.2.1
    numReduced := fun l => if l = logHeight then res.2.2 else st.numReduced l
    reducedOpenings := fun l =>
      if l = logHeight then some res.1 else st.reducedOpenings l }

/-- One `(data, points)` round of `open_multi_batches` (lines 166–238): all matrices
of the committed batch in order. -/
def openRound (alpha : EF) (gen : Nat → Val) (coset_shift : Val)
    (mats : List (MatOpenData Val EF)) (st : OpenState EF) : OpenState EF :=
  mats.foldl (fun s md => openMat alpha gen coset_shift md s) st

/-- The reduced-opening accumulation of `open_multi_batches`
(`src/fri/src/two_adic_pcs.rs`, lines 150–240): starting from
`cached_alpha_pows = vec![one]`, `num_reduced = [0; 32]` and empty buckets, process
every round.  (`alpha` is the batching challenge sampled from the external
Fiat–Shamir challenger; the subsequent `prover::prove` call and the per-query
`open_batch` packaging are external collaborators and not part of the accumulation.) -/
def open_multi_batches (alpha : EF) (gen : Nat → Val) (coset_shift : Val)
    (rounds : List (List (MatOpenData Val EF))) : OpenState EF :=
  rounds.foldl (fun st mats => openRound alpha gen coset_shift mats st)
    ⟨[1], fun _ => 0, fun _ => none⟩

end OpenMultiBatches

theorem getD_eq_getElem_in {α : Type} (l : List α) (d : α) (i : Nat) (h : i < l.length) :
    l.getD i d = l[i] := by
  simp [List.getD_eq_getElem?_getD, List.getElem?_eq_getElem h]

theorem getD_map_in {α β : Type} (f : α → β) (l : List α) (j : Nat) (h : j < l.length)
    (d : β) (d' : α) : (l.map f).getD j d = f (l.getD j d') := by
  rw [getD_eq_getElem_in _ _ _ (by simpa using h), getD_eq_getElem_in _ _ _ h,
    List.getElem_map]

theorem getLastD_eq_getD {α : Type} (l : List α) (h : l ≠ []) (d : α) :
    l.getLastD d = l.getD (l.length - 1) d := by
  induction l generalizing d with
  | nil => simp at h
  | cons a t ih =>
    cases t with
    | nil => rfl
    | cons b t' =>
      have h1 := ih (by simp) a
      have h2 : (b :: t').length - 1 < (b :: t').length := by simp
      rw [show (a :: b :: t').getLastD d = (b :: t').getLastD a from rfl, h1]
      rw [getD_eq_getElem_in _ _ _ h2,
        getD_eq_getElem_in _ _ _ (by simp : (a :: b :: t').length - 1 < (a :: b :: t').length)]
      simp

section OpenMultiBatchesProofs

variable {Val EF : Type} [Field Val] [Field EF] [Algebra Val EF] [Inhabited Val]

/-- The invariant of `cached_alpha_pows`: non-empty, holding exactly the consecutive
powers of α from index 0. -/
def CacheValid (alpha : EF) (cache : List EF) : Prop :=
  cache ≠ [] ∧ ∀ i < cache.length, cache.getD i 1 = alpha ^ i

theorem extendCacheAux_length (power : EF) (n : Nat) (cache : List EF) :
    (extendCacheAux power n cache).length = cache.length + n := by
  induction n generalizing cache with
  | zero => rfl
  | succ m ih =>
    rw [extendCacheAux, ih]
    simp
    omega

theorem extendCacheAux_append (power : EF) (n : Nat) (cache : List EF) :
    ∃ ext, extendCacheAux power n cache = cache ++ ext := by
  induction n generalizing cache with
  | zero => exact ⟨[], by simp [extendCacheAux]⟩
  | succ m ih =>
    obtain ⟨ext, hext⟩ := ih (cache ++ [cache.getLastD 1 * power])
    exact ⟨[cache.getLastD 1 * power] ++ ext, by
      rw [extendCacheAux, hext, List.append_assoc]⟩

theorem extendCacheAux_valid (alpha : EF) (n : Nat) (cache : List EF)
    (hv : CacheValid alpha cache) : CacheValid alpha (extendCacheAux alpha n cache) := by
  induction n generalizing cache with
  | zero => exact hv
  | succ m ih =>
    rw [extendCacheAux]
    refine ih _ ⟨by simp, ?_⟩
    intro i hi
    simp only [List.length_append, List.length_cons, List.length_nil] at hi
    rcases Nat.lt_or_ge i cache.length with h | h
    · rw [List.getD_append _ _ _ _ h]
      exact hv.2 i h
    · have hieq : i = cache.length := by omega
      subst hieq
      have hlen : 0 < cache.length := List.length_pos.mpr hv.1
      rw [getD_eq_getElem_in _ _ _ (by simp)]
      rw [List.getElem_append_right (le_refl _)]
      simp only [Nat.sub_self]
      rw [show ([cache.getLastD 1 * alpha])[0] = cache.getLastD 1 * alpha from rfl]
      rw [getLastD_eq_getD _ hv.1, hv.2 _ (by omega)]
      rw [← pow_succ]
      congr 1
      omega

theorem get_cached_powers_spec (alpha : EF) (cache : List EF) (start count : Nat)
    (hv : CacheValid alpha cache) :
    (∃ ext, (get_cached_powers alpha cache start count).1 = cache ++ ext) ∧
    CacheValid alpha (get_cached_powers alpha cache start count).1 ∧
    (get_cached_powers alpha cache start count).2.length = count ∧
    ∀ k < count, (get_cached_powers alpha cache start count).2.getD k 1 =
      alpha ^ (start + k) := by
  have hlen := extendCacheAux_length alpha (start + count - cache.length) cache
  have hv2 := extendCacheAux_valid alpha (start + count - cache.length) cache hv
  have hge : start + count ≤ (extendCacheAux alpha (start + count - cache.length) cache).length := by
    omega
  refine ⟨extendCacheAux_append alpha _ cache, hv2, ?_, ?_⟩
  · simp only [get_cached_powers, List.length_take, List.length_drop]
    omega
  · intro k hk
    simp only [get_cached_powers]
    have hk2 : k < (List.drop start (extendCacheAux alpha (start + count - cache.length) cache)).length := by
      simp only [List.length_drop]
      omega
    rw [getD_eq_getElem_in _ _ _ (by simp only [List.length_take, List.length_drop]; omega)]
    rw [List.getElem_take]
    rw [List.getElem_drop]
    rw [← getD_eq_getElem_in _ 1 _ (by omega)]
    exact hv2.2 _ (by omega)

theorem reduceRow_eq (row : List Val) (values alphaPows : List EF) (invDenom acc : EF)
    (h1 : values.length = row.length) (h2 : alphaPows.length = row.length) :
    reduceRow row values alphaPows invDenom acc =
      acc + ∑ c ∈ Finset.range row.length,
        alphaPows.getD c 1 * (algebraMap Val EF (row.getD c 0) - values.getD c 0) *
          invDenom := by
  induction row generalizing values alphaPows acc with
  | nil => simp [reduceRow]
  | cons x rt ih =>
    cases values with
    | nil => simp at h1
    | cons v vt =>
      cases alphaPows with
      | nil => simp at h2
      | cons ap apt =>
        have step : reduceRow (x :: rt) (v :: vt) (ap :: apt) invDenom acc
            = reduceRow rt vt apt invDenom
                (acc + ap * (algebraMap Val EF x - v) * invDenom) := rfl
        rw [step, ih vt apt _ (by simpa using h1) (by simpa using h2)]
        rw [show (x :: rt).length = rt.length + 1 from rfl, Finset.sum_range_succ']
        simp only [List.getD_cons_succ, List.getD_cons_zero]
        ring

theorem reducePoint_getD (mat : List (List Val)) (values alphaPows invDenoms bucket : List EF)
    (i : Nat) (hb : bucket.length = mat.length) (hd : invDenoms.length = mat.length)
    (hi : i < mat.length) :
    (reducePoint mat values alphaPows invDenoms bucket).getD i 0 =
      reduceRow (mat.getD i []) values alphaPows (invDenoms.getD i 0)
        (bucket.getD i 0) := by
  have hz1 : i < (mat.zip bucket).length := by
    simp only [List.length_zip]
    omega
  have hz2 : i < ((mat.zip bucket).zip invDenoms).length := by
    simp only [List.length_zip]
    omega
  rw [reducePoint, getD_eq_getElem_in _ _ _ (by simpa using hz2), List.getElem_map]
  rw [List.getElem_zip, List.getElem_zip]
  rw [getD_eq_getElem_in _ _ _ hi, getD_eq_getElem_in _ _ _ (by omega),
    getD_eq_getElem_in _ _ _ (by omega)]

end OpenMultiBatchesProofs

section OpenStepSpec

variable {Val EF : Type} [Field Val] [Field EF] [Algebra Val EF] [Inhabited Val]

theorem openMatPointStep_spec (alpha : EF) (subgroup : List Val) (interp : EF → List EF)
    (mat : List (List Val)) (width : Nat) (bucket cache : List EF) (numRed : Nat)
    (z : EF) (hv : CacheValid alpha cache)
    (hmw : ∀ r ∈ mat, r.length = width) (hiw : (interp z).length = width)
    (hb : bucket.length = mat.length) (hs : subgroup.length = mat.length)
    (i : Nat) (hi : i < mat.length) :
    (openMatPointStep alpha subgroup interp mat width (bucket, cache, numRed) z).1.getD i 0
      = bucket.getD i 0 +
        ∑ c ∈ Finset.range width, alpha ^ (numRed + c) *
          (algebraMap Val EF ((mat.getD i []).getD c 0) - (interp z).getD c 0) *
          (algebraMap Val EF (subgroup.getD i default) - z)⁻¹ ∧
    (openMatPointStep alpha subgroup interp mat width (bucket, cache, numRed) z).2.2
      = numRed + width ∧
    (∃ ext, (openMatPointStep alpha subgroup interp mat width (bucket, cache, numRed) z).2.1
      = cache ++ ext) ∧
    CacheValid alpha
      (openMatPointStep alpha subgroup interp mat width (bucket, cache, numRed) z).2.1 := by
  obtain ⟨hext, hvalid, hplen, hpval⟩ := get_cached_powers_spec alpha cache numRed width hv
  have hrowmem : mat.getD i [] ∈ mat := by
    rw [getD_eq_getElem_in _ _ _ hi]
    exact List.getElem_mem hi
  have hrw : (mat.getD i []).length = width := hmw _ hrowmem
  have hdl : (batch_multiplicative_inverse
      (subgroup.map fun x => algebraMap Val EF x - z)).length = mat.length := by
    simp [batch_multiplicative_inverse, hs]
  refine ⟨?_, rfl, hext, hvalid⟩
  rw [show (openMatPointStep alpha subgroup interp mat width (bucket, cache, numRed) z).1
    = reducePoint mat (interp z)
        (get_cached_powers alpha cache numRed width).2
        (batch_multiplicative_inverse (subgroup.map fun x => algebraMap Val EF x - z))
        bucket from rfl]
  rw [reducePoint_getD _ _ _ _ _ i hb hdl hi]
  rw [reduceRow_eq _ _ _ _ _ (by omega) (by omega)]
  congr 1
  rw [hrw]
  apply Finset.sum_congr rfl
  intro c hc
  have hcw : c < width := Finset.mem_range.mp hc
  rw [hpval c hcw]
  congr 1
  rw [show batch_multiplicative_inverse (subgroup.map fun x => algebraMap Val EF x - z)
    = (subgroup.map fun x => algebraMap Val EF x - z).map (·⁻¹) from rfl]
  rw [getD_map_in _ _ i (by simpa using hs ▸ hi) 0 0,
    getD_map_in _ _ i (hs ▸ hi) 0 default]

end OpenStepSpec

section OpenTwoMats

variable {Val EF : Type} [Field Val] [Field EF] [Algebra Val EF] [Inhabited Val]

theorem reverse_slice_index_bits_length {α : Type} [Inhabited α] (xs : List α)
    (bits : Nat) : (reverse_slice_index_bits xs bits).length = xs.length := by
  simp [reverse_slice_index_bits]

theorem cyclic_subgroup_coset_length (g shift : Val) (order : Nat) :
    (cyclic_subgroup_coset g shift order).length = order := by
  simp [cyclic_subgroup_coset]

theorem cacheValid_init (alpha : EF) : CacheValid alpha [1] := by
  refine ⟨by simp, ?_⟩
  intro i hi
  simp only [List.length_cons, List.length_nil] at hi
  interval_cases i
  simp

theorem openMatPointStep_bucket_length (alpha : EF) (subgroup : List Val)
    (interp : EF → List EF) (mat : List (List Val)) (width : Nat)
    (bucket cache : List EF) (numRed : Nat) (z : EF)
    (hb : bucket.length = mat.length) (hs : subgroup.length = mat.length) :
    (openMatPointStep alpha subgroup interp mat width (bucket, cache, numRed) z).1.length
      = mat.length := by
  simp only [openMatPointStep, reducePoint, batch_multiplicative_inverse,
    List.length_map, List.length_zip]
  omega

theorem openMat_single_point (alpha : EF) (gen : Nat → Val) (cs : Val)
    (rows : List (List Val)) (w : Nat) (z : EF) (interp : EF → List EF)
    (st : OpenState EF) (logH : Nat) (h : rows.length = 2 ^ logH) :
    openMat alpha gen cs ⟨rows, w, [z], interp⟩ st =
      { cache := (openMatPointStep alpha
          (reverse_slice_index_bits
            (cyclic_subgroup_coset (gen logH) cs (2 ^ logH)) logH) interp rows w
          ((st.reducedOpenings logH).getD (List.replicate (2 ^ logH) 0),
            st.cache, st.numReduced logH) z).2.1
        numReduced := fun l => if l = logH then
          (openMatPointStep alpha
            (reverse_slice_index_bits
              (cyclic_subgroup_coset (gen logH) cs (2 ^ logH)) logH) interp rows w
            ((st.reducedOpenings logH).getD (List.replicate (2 ^ logH) 0),
              st.cache, st.numReduced logH) z).2.2
          else st.numReduced l
        reducedOpenings := fun l => if l = logH then some
          (openMatPointStep alpha
            (reverse_slice_index_bits
              (cyclic_subgroup_coset (gen logH) cs (2 ^ logH)) logH) interp rows w
            ((st.reducedOpenings logH).getD (List.replicate (2 ^ logH) 0),
              st.cache, st.numReduced logH) z).1
          else st.reducedOpenings l } := by
  have hl : log2Aux (2 ^ logH) (2 ^ logH) = logH := by
    rw [log2Aux_eq _ _ (le_refl _), Nat.log2_two_pow]
  simp only [openMat, h, hl, List.foldl_cons, List.foldl_nil]

/-- Batched reduced-opening linearity for two single-point width-1 matrices sharing a
domain: the final accumulator is `(p(x) − p(z))/(x − z) + α·(q(x) − q(z))/(x − z)`
at every domain point `x`. -/
theorem open_two_single_matrices (alpha : EF) (gen : Nat → Val) (cs : Val) (logH : Nat)
    (pRows qRows : List (List Val)) (hp : pRows.length = 2 ^ logH)
    (hq : qRows.length = 2 ^ logH) (hpw : ∀ r ∈ pRows, r.length = 1)
    (hqw : ∀ r ∈ qRows, r.length = 1) (z vp vq : EF) :
    ∃ bucket,
      (open_multi_batches alpha gen cs
        [[⟨pRows, 1, [z], fun _ => [vp]⟩,
          ⟨qRows, 1, [z], fun _ => [vq]⟩]]).reducedOpenings logH = some bucket ∧
      ∀ i < 2 ^ logH,
        bucket.getD i 0 =
          (algebraMap Val EF ((pRows.getD i []).getD 0 0) - vp) *
            (algebraMap Val EF ((reverse_slice_index_bits
              (cyclic_subgroup_coset (gen logH) cs (2 ^ logH)) logH).getD i default)
              - z)⁻¹
          + alpha * ((algebraMap Val EF ((qRows.getD i []).getD 0 0) - vq) *
            (algebraMap Val EF ((reverse_slice_index_bits
              (cyclic_subgroup_coset (gen logH) cs (2 ^ logH)) logH).getD i default)
              - z)⁻¹) := by
  have hsublen : (reverse_slice_index_bits
      (cyclic_subgroup_coset (gen logH) cs (2 ^ logH)) logH).length = 2 ^ logH := by
    rw [reverse_slice_index_bits_length, cyclic_subgroup_coset_length]
  have hstep : open_multi_batches alpha gen cs
      [[(⟨pRows, 1, [z], fun _ => [vp]⟩ : MatOpenData Val EF),
        ⟨qRows, 1, [z], fun _ => [vq]⟩]]
      = openMat alpha gen cs ⟨qRows, 1, [z], fun _ => [vq]⟩
          (openMat alpha gen cs ⟨pRows, 1, [z], fun _ => [vp]⟩
            ⟨[1], fun _ => 0, fun _ => none⟩) := rfl
  rw [hstep]
  rw [openMat_single_point alpha gen cs pRows 1 z _ _ logH hp]
  set subgroup := reverse_slice_index_bits
    (cyclic_subgroup_coset (gen logH) cs (2 ^ logH)) logH with hsub
  set resP := openMatPointStep alpha subgroup (fun _ => [vp]) pRows 1
    (List.replicate (2 ^ logH) (0 : EF), [1], 0) z with hresP
  have hPlen : resP.1.length = 2 ^ logH := by
    rw [hresP, ← hp]
    exact openMatPointStep_bucket_length _ _ _ _ _ _ _ _ _
      (by simp [hp]) (by rw [hsublen, hp])
  have hPspec := fun (i : Nat) (hi : i < pRows.length) =>
    openMatPointStep_spec alpha subgroup (fun _ => [vp]) pRows 1
      (List.replicate (2 ^ logH) (0 : EF)) [1] 0 z (cacheValid_init alpha) hpw rfl
      (by simp [hp]) (by rw [hsublen, hp]) i hi
  have hPvalid : CacheValid alpha resP.2.1 := (hPspec 0 (by rw [hp]; positivity)).2.2.2
  rw [openMat_single_point alpha gen cs qRows 1 z _ _ logH hq]
  simp only [if_pos rfl, Option.getD_some]
  set resQ := openMatPointStep alpha subgroup (fun _ => [vq]) qRows 1
    (resP.1, resP.2.1, resP.2.2) z with hresQ
  refine ⟨resQ.1, by simp, ?_⟩
  intro i hi
  have hQspec := openMatPointStep_spec alpha subgroup (fun _ => [vq]) qRows 1
    resP.1 resP.2.1 resP.2.2 z hPvalid hqw rfl (by rw [hPlen, hq])
    (by rw [hsublen, hq]) i (by rw [hq]; exact hi)
  rw [← hresQ] at hQspec
  rw [hQspec.1]
  have hP1 := (hPspec i (by rw [hp]; exact hi)).1
  rw [← hresP] at hP1
  rw [hP1]
  have hrepl : (List.replicate (2 ^ logH) (0 : EF)).getD i 0 = 0 := by
    rw [getD_eq_getElem_in _ _ _ (by simpa using hi), List.getElem_replicate]
  have hnum : resP.2.2 = 1 := rfl
  rw [hrepl, hnum]
  rw [Finset.sum_range_one, Finset.sum_range_one]
  simp only [pow_zero, one_mul, zero_add, Nat.add_zero, pow_one, List.getD_cons_zero]
  ring

end OpenTwoMats

/-- **C3.**  In `open_multi_batches`: (i) every `(mat, point)` iteration adds to the
log-height bucket exactly `Σ_col α^(num_reduced + col) · (p(x) − p(z)) / (x − z)` at
every domain point `x` (row `i` of the bit-reversed coset), advances `num_reduced`
by the matrix width, and only ever extends the α-power cache at the end
(`get_cached_powers`), never recomputing it from index 0 (the cache invariant
`cache[k] = α^k` is preserved and the old cache is a prefix of the new one); and
(ii) for two single-point width-1 matrices `p`, `q` sharing a domain, the final
accumulator equals `(p(x) − p(z))/(x − z) + α·(q(x) − q(z))/(x − z)` at every `x`. -/
theorem open_multi_batches_reduced_opening {Val EF : Type} [Field Val] [Field EF]
    [Algebra Val EF] [Inhabited Val] :
    (∀ (alpha : EF) (subgroup : List Val) (interp : EF → List EF)
      (mat : List (List Val)) (width : Nat) (bucket cache : List EF) (numRed : Nat)
      (z : EF), CacheValid alpha cache → (∀ r ∈ mat, r.length = width) →
      (interp z).length = width → bucket.length = mat.length →
      subgroup.length = mat.length → ∀ i < mat.length,
      ((openMatPointStep alpha subgroup interp mat width (bucket, cache, numRed) z).1.getD i 0
        = bucket.getD i 0 + ∑ c ∈ Finset.range width, alpha ^ (numRed + c) *
            (algebraMap Val EF ((mat.getD i []).getD c 0) - (interp z).getD c 0) *
            (algebraMap Val EF (subgroup.getD i default) - z)⁻¹) ∧
      (openMatPointStep alpha subgroup interp mat width (bucket, cache, numRed) z).2.2
        = numRed + width ∧
      (∃ ext, (openMatPointStep alpha subgroup interp mat width (bucket, cache, numRed) z).2.1
        = cache ++ ext) ∧
      CacheValid alpha
        (openMatPointStep alpha subgroup interp mat width (bucket, cache, numRed) z).2.1) ∧
    (∀ (alpha : EF) (gen : Nat → Val) (cs : Val) (logH : Nat)
      (pRows qRows : List (List Val)), pRows.length = 2 ^ logH →
      qRows.length = 2 ^ logH → (∀ r ∈ pRows, r.length = 1) →
      (∀ r ∈ qRows, r.length = 1) → ∀ (z vp vq : EF),
      ∃ bucket,
        (open_multi_batches alpha gen cs
          [[⟨pRows, 1, [z], fun _ => [vp]⟩,
            ⟨qRows, 1, [z], fun _ => [vq]⟩]]).reducedOpenings logH = some bucket ∧
        ∀ i < 2 ^ logH,
          bucket.getD i 0 =
            (algebraMap Val EF ((pRows.getD i []).getD 0 0) - vp) *
              (algebraMap Val EF ((reverse_slice_index_bits
                (cyclic_subgroup_coset (gen logH) cs (2 ^ logH)) logH).getD i default)
                - z)⁻¹
            + alpha * ((algebraMap Val EF ((qRows.getD i []).getD 0 0) - vq) *
              (algebraMap Val EF ((reverse_slice_index_bits
                (cyclic_subgroup_coset (gen logH) cs (2 ^ logH)) logH).getD i default)
                - z)⁻¹)) :=
  ⟨fun alpha subgroup interp mat width bucket cache numRed z hv hmw hiw hb hs i hi =>
    openMatPointStep_spec alpha subgroup interp mat width bucket cache numRed z
      hv hmw hiw hb hs i hi,
   fun alpha gen cs logH pRows qRows hp hq hpw hqw z vp vq =>
    open_two_single_matrices alpha gen cs logH pRows qRows hp hq hpw hqw z vp vq⟩

/-- Witness for C3 over `Val = EF = ZMod 5`: a concrete single-column step and a
concrete two-matrix batch at height `2^0 = 1`. -/
theorem open_multi_batches_reduced_opening_witness :
    (CacheValid (2 : ZMod 5) [1] ∧
      ((openMatPointStep (2 : ZMod 5) [(3 : ZMod 5)] (fun _ => [4]) [[(2 : ZMod 5)]] 1
          ([0], [1], 0) 1).1.getD 0 0
        = ([(0 : ZMod 5)]).getD 0 0 + ∑ c ∈ Finset.range 1, (2 : ZMod 5) ^ (0 + c) *
            (algebraMap (ZMod 5) (ZMod 5) (([[(2 : ZMod 5)]].getD 0 []).getD c 0)
              - ((fun _ => [(4 : ZMod 5)]) (1 : ZMod 5)).getD c 0) *
            (algebraMap (ZMod 5) (ZMod 5) (([(3 : ZMod 5)]).getD 0 default) - 1)⁻¹)) ∧
    (([[(2 : ZMod 5)]] : List (List (ZMod 5))).length = 2 ^ 0 ∧
      ∃ bucket,
        (open_multi_batches (2 : ZMod 5) (fun _ => (3 : ZMod 5)) 1
          [[⟨[[2]], 1, [1], fun _ => [4]⟩,
            ⟨[[3]], 1, [1], fun _ => [2]⟩]]).reducedOpenings 0 = some bucket ∧
        ∀ i < 2 ^ 0,
          bucket.getD i 0 =
            (algebraMap (ZMod 5) (ZMod 5) (([[(2 : ZMod 5)]].getD i []).getD 0 0) - 4) *
              (algebraMap (ZMod 5) (ZMod 5) ((reverse_slice_index_bits
                (cyclic_subgroup_coset (3 : ZMod 5) 1 (2 ^ 0)) 0).getD i default)
                - 1)⁻¹
            + 2 * ((algebraMap (ZMod 5) (ZMod 5) (([[(3 : ZMod 5)]].getD i []).getD 0 0) - 2) *
              (algebraMap (ZMod 5) (ZMod 5) ((reverse_slice_index_bits
                (cyclic_subgroup_coset (3 : ZMod 5) 1 (2 ^ 0)) 0).getD i default)
                - 1)⁻¹)) :=
  ⟨⟨cacheValid_init 2,
    (open_multi_batches_reduced_opening.1 (2 : ZMod 5) [(3 : ZMod 5)] (fun _ => [4])
      [[(2 : ZMod 5)]] 1 [0] [1] 0 1 (cacheValid_init 2) (by decide) (by decide)
      (by decide) (by decide) 0 (by decide)).1⟩,
   ⟨by decide,
    open_multi_batches_reduced_opening.2 (2 : ZMod 5) (fun _ => (3 : ZMod 5)) 1 0
      [[2]] [[3]] (by decide) (by decide) (by decide) (by decide) 1 4 2⟩⟩

theorem reverseBitsLen_zero (bits : Nat) : reverseBitsLen bits 0 = 0 := by
  induction bits with
  | zero => rfl
  | succ n ih => simp [reverseBitsLen, ih]

theorem reverseBitsLen_two_mul (m b : Nat) :
    reverseBitsLen (m + 1) (2 * b) = reverseBitsLen m b := by
  simp [reverseBitsLen, Nat.mul_div_cancel_left b (by norm_num : 0 < 2),
    Nat.mul_mod_right]

theorem reverseBitsLen_two_mul_add_one (m b : Nat) :
    reverseBitsLen (m + 1) (2 * b + 1) = 2 ^ m + reverseBitsLen m b := by
  have h1 : (2 * b + 1) % 2 = 1 := by omega
  have h2 : (2 * b + 1) / 2 = b := by omega
  simp [reverseBitsLen, h1, h2]

/-- `rev_(l+m)(b) = rev_l(b) * 2^m` for `b < 2^l` (padding high zero bits). -/
theorem reverseBitsLen_shift (l m b : Nat) (hb : b < 2 ^ l) :
    reverseBitsLen (l + m) b = reverseBitsLen l b * 2 ^ m := by
  have := reverseBitsLen_add l m b 0 hb
  simpa [reverseBitsLen_zero] using this

/-- Setting the top bit of an `m`-bit number adds one to its reversal. -/
theorem reverseBitsLen_add_top_bit (m r : Nat) (hr : r < 2 ^ m) :
    reverseBitsLen (m + 1) (r + 2 ^ m) = reverseBitsLen (m + 1) r + 1 := by
  have h1 := reverseBitsLen_add m 1 r 1 hr
  have h0 := reverseBitsLen_add m 1 r 0 hr
  simp only [Nat.mul_one, Nat.mul_zero, Nat.add_zero] at h1 h0
  rw [h1, h0]
  simp [reverseBitsLen]

section DitLayers

variable {F : Type} [Field F]

/-- One layer of the DIT butterfly network, `dit_layer`
(`src/dft/src/radix_2_dit_parallel.rs`, lines 297–319), acting on one column as a
function of the row index: blocks of size `2^(layer+1)`; within each block the pair
at position `p` combines rows `p` and `p + 2^layer` through the `DitButterfly`
(`src/dft/src/butterflies.rs`, not under `src/`; per the spec's DIT description the
butterfly is `(lo, hi) ↦ (lo + t·hi, lo − t·hi)`), with the `p`-th twiddle of the
iterator. -/
def ditLayer (layer : Nat) (tw : Nat → F) (v : Nat → F) : Nat → F := fun i =>
  if i % (2 * 2 ^ layer) < 2 ^ layer then
    v i + tw (i % 2 ^ layer) * v (i + 2 ^ layer)
  else
    v (i - 2 ^ layer) - tw (i % 2 ^ layer) * v i

/-- One layer of the bit-reversed ("Bowers G^T") DIT network, `dit_layer_rev`
(lines 321–344): blocks of size `2^(layer_rev+1)`, one twiddle per block, indexed by
the block number. -/
def ditLayerRev (layerRev : Nat) (tw : Nat → F) (v : Nat → F) : Nat → F := fun i =>
  if i % (2 * 2 ^ layerRev) < 2 ^ layerRev then
    v i + tw (i / (2 * 2 ^ layerRev)) * v (i + 2 ^ layerRev)
  else
    v (i - 2 ^ layerRev) - tw (i / (2 * 2 ^ layerRev)) * v i

theorem ditLayer_apply (l : Nat) (tw : Nat → F) (v : Nat → F) (e r : Nat)
    (hr : r < 2 ^ (l + 1)) :
    ditLayer l tw v (e * 2 ^ (l + 1) + r) =
      if r < 2 ^ l then
        v (e * 2 ^ (l + 1) + r) + tw r * v (e * 2 ^ (l + 1) + r + 2 ^ l)
      else
        v (e * 2 ^ (l + 1) + r - 2 ^ l) - tw (r - 2 ^ l) * v (e * 2 ^ (l + 1) + r) := by
  have hpow : 2 * 2 ^ l = 2 ^ (l + 1) := by ring
  have hmod : (e * 2 ^ (l + 1) + r) % (2 * 2 ^ l) = r := by
    rw [hpow, Nat.add_comm, Nat.add_mul_mod_self_right, Nat.mod_eq_of_lt hr]
  have hmodl : (e * 2 ^ (l + 1) + r) % 2 ^ l = r % 2 ^ l := by
    have : e * 2 ^ (l + 1) + r = r + 2 ^ l * (2 * e) := by ring
    rw [this, Nat.add_mul_mod_self_left]
  rw [ditLayer, hmod, hmodl]
  by_cases hc : r < 2 ^ l
  · rw [if_pos hc, if_pos hc, Nat.mod_eq_of_lt hc]
  · rw [if_neg hc, if_neg hc]
    have hge : 2 ^ l ≤ r := Nat.le_of_not_lt hc
    have : r % 2 ^ l = r - 2 ^ l := by
      rw [Nat.mod_eq_sub_mod hge, Nat.mod_eq_of_lt (by omega)]
    rw [this]

theorem ditLayerRev_apply (lr : Nat) (tw : Nat → F) (v : Nat → F) (e r : Nat)
    (hr : r < 2 ^ (lr + 1)) :
    ditLayerRev lr tw v (e * 2 ^ (lr + 1) + r) =
      if r < 2 ^ lr then
        v (e * 2 ^ (lr + 1) + r) + tw e * v (e * 2 ^ (lr + 1) + r + 2 ^ lr)
      else
        v (e * 2 ^ (lr + 1) + r - 2 ^ lr) - tw e * v (e * 2 ^ (lr + 1) + r) := by
  have hpow : 2 * 2 ^ lr = 2 ^ (lr + 1) := by ring
  have hmod : (e * 2 ^ (lr + 1) + r) % (2 * 2 ^ lr) = r := by
    rw [hpow, Nat.add_comm, Nat.add_mul_mod_self_right, Nat.mod_eq_of_lt hr]
  have hdiv : (e * 2 ^ (lr + 1) + r) / (2 * 2 ^ lr) = e := by
    rw [hpow, Nat.add_comm, Nat.add_mul_div_right _ _ (by positivity),
      Nat.div_eq_of_lt hr]
    omega
  rw [ditLayerRev, hmod, hdiv]

/-- Splitting a sum over `range (2*n)` into even and odd indices. -/
theorem sum_range_two_mul (n : Nat) (f : Nat → F) :
    ∑ t ∈ Finset.range (2 * n), f t =
      (∑ u ∈ Finset.range n, f (2 * u)) + ∑ u ∈ Finset.range n, f (2 * u + 1) := by
  induction n with
  | zero => simp
  | succ m ih =>
    have h : 2 * (m + 1) = 2 * m + 1 + 1 := by ring
    rw [h, Finset.sum_range_succ, Finset.sum_range_succ,
      Finset.sum_range_succ (fun u => f (2 * u)) m,
      Finset.sum_range_succ (fun u => f (2 * u + 1)) m, ih]
    ring

end DitLayers

section NetworkInvariant

variable {F : Type} [Field F]

/-- The closed-form twiddle of the (coset-shifted) standard DIT layer `l` in a
height-`2^k` network: pair position `p` gets `s^(2^(k-1-l)) · (ω^(2^(k-1-l)))^p`
(`compute_coset_twiddles`, layer indexed as consumed; the plain forward/inverse
twiddles of `compute_twiddles` are the case `s = 1`). -/
def stdTwiddle (k : Nat) (ω s : F) (l : Nat) : Nat → F := fun p =>
  s ^ 2 ^ (k - 1 - l) * (ω ^ 2 ^ (k - 1 - l)) ^ p

/-- Running the first `L` standard DIT layers with closed-form twiddles. -/
def ditLayersUpTo (k : Nat) (ω s : F) (L : Nat) (v : Nat → F) : Nat → F :=
  (List.range L).foldl (fun w l => ditLayer l (stdTwiddle k ω s l) w) v

/-- The classical DIT loop invariant, generalised with a coset shift `s`: after `L`
layers on the bit-reversed coefficient input, block `b` of size `2^L` holds the
size-`2^L` shifted DFT of the stride-`2^(k-L)` coefficient subsequence starting at
`rev_(k-L)(b)`. -/
theorem ditLayersUpTo_invariant (k : Nat) (ω s : F) (h1 : ω ^ 2 ^ k = 1)
    (h2 : 0 < k → ω ^ 2 ^ (k - 1) = -1) (cf : Nat → F) (L : Nat) (hL : L ≤ k) :
    ∀ i < 2 ^ k,
      ditLayersUpTo k ω s L (fun j => cf (reverseBitsLen k j)) i =
        ∑ t ∈ Finset.range (2 ^ L),
          cf (t * 2 ^ (k - L) + reverseBitsLen (k - L) (i / 2 ^ L)) *
            s ^ (t * 2 ^ (k - L)) * (ω ^ 2 ^ (k - L)) ^ (i % 2 ^ L * t) := by
  induction L with
  | zero =>
    intro i hi
    have hm : i % 1 = 0 := Nat.mod_one i
    simp [ditLayersUpTo, hm]
  | succ L ih =>
    intro i hi
    have hLk : L < k := by omega
    have hkL1 : k - L = (k - L - 1) + 1 := by omega
    have hk1L : k - 1 - L = k - L - 1 := by omega
    have hkLs : k - (L + 1) = k - L - 1 := by omega
    have hpow2 : (2 : Nat) ^ (k - L) = 2 * 2 ^ (k - L - 1) := by
      conv_lhs => rw [hkL1]
      rw [pow_succ']
    have hμ2 : (ω ^ 2 ^ (k - L - 1)) * (ω ^ 2 ^ (k - L - 1)) = ω ^ 2 ^ (k - L) := by
      rw [← pow_add, hpow2]
      congr 1
      omega
    have hμ2S : (ω ^ 2 ^ (k - L - 1)) ^ (2 * 2 ^ L) = 1 := by
      rw [← pow_mul]
      rw [show 2 ^ (k - L - 1) * (2 * 2 ^ L) = 2 ^ k from by
        conv_rhs => rw [show k = (k - L - 1) + (1 + L) from by omega]
        rw [pow_add, pow_add]
        ring]
      exact h1
    have hμS : (ω ^ 2 ^ (k - L - 1)) ^ 2 ^ L = -1 := by
      rw [← pow_mul]
      rw [show 2 ^ (k - L - 1) * 2 ^ L = 2 ^ (k - 1) from by
        rw [← pow_add]
        congr 1
        omega]
      exact h2 (by omega)
    rw [ditLayersUpTo, List.range_succ, List.foldl_append, List.foldl_cons,
      List.foldl_nil]
    rw [show (List.range L).foldl (fun w l => ditLayer l (stdTwiddle k ω s l) w)
        (fun j => cf (reverseBitsLen k j))
      = ditLayersUpTo k ω s L (fun j => cf (reverseBitsLen k j)) from rfl]
    obtain ⟨e, r, rfl, hr⟩ : ∃ e r, i = e * 2 ^ (L + 1) + r ∧ r < 2 ^ (L + 1) :=
      ⟨i / 2 ^ (L + 1), i % 2 ^ (L + 1),
        by rw [Nat.mul_comm, Nat.div_add_mod], Nat.mod_lt _ (by positivity)⟩
    have hBpos : (0 : Nat) < 2 ^ (L + 1) := by positivity
    have hAB : 2 ^ (L + 1) * 2 ^ (k - L - 1) = 2 ^ k := by
      rw [← pow_add]
      congr 1
      omega
    have he : e < 2 ^ (k - L - 1) := by
      by_contra hcon
      push_neg at hcon
      have hmul : 2 ^ (L + 1) * 2 ^ (k - L - 1) ≤ 2 ^ (L + 1) * e :=
        Nat.mul_le_mul_left _ hcon
      rw [hAB, Nat.mul_comm] at hmul
      omega
    have he1 : (e + 1) * 2 ^ (L + 1) ≤ 2 ^ k := by
      calc (e + 1) * 2 ^ (L + 1) ≤ 2 ^ (k - L - 1) * 2 ^ (L + 1) :=
            Nat.mul_le_mul_right _ (by omega)
      _ = 2 ^ k := by rw [Nat.mul_comm]; exact hAB
    have hdiv21 : (e * 2 ^ (L + 1) + r) / 2 ^ (L + 1) = e := by
      rw [Nat.mul_comm e, Nat.mul_add_div hBpos, Nat.div_eq_of_lt hr]
      omega
    have hmod21 : (e * 2 ^ (L + 1) + r) % 2 ^ (L + 1) = r := by
      rw [Nat.mul_comm e, Nat.mul_add_mod, Nat.mod_eq_of_lt hr]
    have hpowL1 : (2 : Nat) ^ (L + 1) = 2 * 2 ^ L := pow_succ' 2 L
    rw [hdiv21, hmod21]
    rw [ditLayer_apply _ _ _ e r hr]
    by_cases hc : r < 2 ^ L
    · -- low half of the block: butterfly adds `tw r` times the partner above
      rw [if_pos hc]
      have hdivL : (e * 2 ^ (L + 1) + r) / 2 ^ L = 2 * e := by
        rw [show e * 2 ^ (L + 1) + r = 2 ^ L * (2 * e) + r from by rw [hpowL1]; ring,
          Nat.mul_add_div (by positivity), Nat.div_eq_of_lt hc]
        omega
      have hmodL : (e * 2 ^ (L + 1) + r) % 2 ^ L = r := by
        rw [show e * 2 ^ (L + 1) + r = 2 ^ L * (2 * e) + r from by rw [hpowL1]; ring,
          Nat.mul_add_mod, Nat.mod_eq_of_lt hc]
      have hdivP : (e * 2 ^ (L + 1) + r + 2 ^ L) / 2 ^ L = 2 * e + 1 := by
        rw [show e * 2 ^ (L + 1) + r + 2 ^ L = 2 ^ L * (2 * e + 1) + r from by
          rw [hpowL1]; ring, Nat.mul_add_div (by positivity), Nat.div_eq_of_lt hc]
      have hmodP : (e * 2 ^ (L + 1) + r + 2 ^ L) % 2 ^ L = r := by
        rw [show e * 2 ^ (L + 1) + r + 2 ^ L = 2 ^ L * (2 * e + 1) + r from by
          rw [hpowL1]; ring, Nat.mul_add_mod, Nat.mod_eq_of_lt hc]
      have hboundP : e * 2 ^ (L + 1) + r + 2 ^ L < 2 ^ k := by
        have hA : (e + 1) * 2 ^ (L + 1) = e * 2 ^ (L + 1) + 2 ^ (L + 1) := by ring
        have h2L : (2 : Nat) ^ (L + 1) = 2 * 2 ^ L := hpowL1
        omega
      rw [ih (by omega) _ hi, ih (by omega) _ hboundP]
      rw [hdivL, hmodL, hdivP, hmodP]
      have hrev1 : reverseBitsLen (k - L) (2 * e) = reverseBitsLen (k - L - 1) e := by
        rw [hkL1]
        exact reverseBitsLen_two_mul _ _
      have hrev2 : reverseBitsLen (k - L) (2 * e + 1)
          = 2 ^ (k - L - 1) + reverseBitsLen (k - L - 1) e := by
        rw [hkL1]
        exact reverseBitsLen_two_mul_add_one _ _
      rw [hrev1, hrev2]
      rw [hpowL1, sum_range_two_mul]
      simp only [stdTwiddle, hk1L]
      rw [Finset.mul_sum]
      congr 1
      · apply Finset.sum_congr rfl
        intro u hu
        rw [hkLs]
        rw [show 2 * u * 2 ^ (k - L - 1) = u * 2 ^ (k - L) from by rw [hpow2]; ring]
        rw [← hμ2]
        ring
      · apply Finset.sum_congr rfl
        intro u hu
        rw [hkLs]
        rw [show (2 * u + 1) * 2 ^ (k - L - 1) = u * 2 ^ (k - L) + 2 ^ (k - L - 1)
          from by rw [hpow2]; ring]
        rw [Nat.add_assoc]
        rw [← hμ2]
        ring
    · -- high half of the block: butterfly subtracts from the partner below
      rw [if_neg hc]
      obtain ⟨p, rfl⟩ : ∃ p, r = p + 2 ^ L := ⟨r - 2 ^ L, by omega⟩
      have hp : p < 2 ^ L := by
        rw [hpowL1] at hr
        omega
      have hsubP : p + 2 ^ L - 2 ^ L = p := by omega
      have hsubA : e * 2 ^ (L + 1) + (p + 2 ^ L) - 2 ^ L = e * 2 ^ (L + 1) + p := by
        omega
      rw [hsubP, hsubA]
      have hdivA : (e * 2 ^ (L + 1) + (p + 2 ^ L)) / 2 ^ L = 2 * e + 1 := by
        rw [show e * 2 ^ (L + 1) + (p + 2 ^ L) = 2 ^ L * (2 * e + 1) + p from by
          rw [hpowL1]; ring, Nat.mul_add_div (by positivity), Nat.div_eq_of_lt hp]
      have hmodA : (e * 2 ^ (L + 1) + (p + 2 ^ L)) % 2 ^ L = p := by
        rw [show e * 2 ^ (L + 1) + (p + 2 ^ L) = 2 ^ L * (2 * e + 1) + p from by
          rw [hpowL1]; ring, Nat.mul_add_mod, Nat.mod_eq_of_lt hp]
      have hdivB : (e * 2 ^ (L + 1) + p) / 2 ^ L = 2 * e := by
        rw [show e * 2 ^ (L + 1) + p = 2 ^ L * (2 * e) + p from by
          rw [hpowL1]; ring, Nat.mul_add_div (by positivity), Nat.div_eq_of_lt hp]
        omega
      have hmodB : (e * 2 ^ (L + 1) + p) % 2 ^ L = p := by
        rw [show e * 2 ^ (L + 1) + p = 2 ^ L * (2 * e) + p from by
          rw [hpowL1]; ring, Nat.mul_add_mod, Nat.mod_eq_of_lt hp]
      have hboundB : e * 2 ^ (L + 1) + p < 2 ^ k := by omega
      rw [ih (by omega) _ hi, ih (by omega) _ hboundB]
      rw [hdivA, hmodA, hdivB, hmodB]
      have hrev1 : reverseBitsLen (k - L) (2 * e) = reverseBitsLen (k - L - 1) e := by
        rw [hkL1]
        exact reverseBitsLen_two_mul _ _
      have hrev2 : reverseBitsLen (k - L) (2 * e + 1)
          = 2 ^ (k - L - 1) + reverseBitsLen (k - L - 1) e := by
        rw [hkL1]
        exact reverseBitsLen_two_mul_add_one _ _
      rw [hrev1, hrev2]
      rw [hpowL1, sum_range_two_mul]
      simp only [stdTwiddle, hk1L]
      rw [Finset.mul_sum, sub_eq_add_neg, ← Finset.sum_neg_distrib]
      congr 1
      · apply Finset.sum_congr rfl
        intro u hu
        rw [hkLs]
        rw [show 2 * u * 2 ^ (k - L - 1) = u * 2 ^ (k - L) from by rw [hpow2]; ring]
        rw [show (p + 2 ^ L) * (2 * u) = p * u * 2 + 2 * 2 ^ L * u from by ring]
        rw [pow_add, pow_mul (ω ^ 2 ^ (k - L - 1)) (2 * 2 ^ L) u, hμ2S, one_pow,
          mul_one]
        rw [← hμ2]
        ring
      · apply Finset.sum_congr rfl
        intro u hu
        rw [hkLs]
        rw [show (2 * u + 1) * 2 ^ (k - L - 1) = u * 2 ^ (k - L) + 2 ^ (k - L - 1)
          from by rw [hpow2]; ring]
        rw [Nat.add_assoc]
        rw [show (p + 2 ^ L) * (2 * u + 1) = p * u * 2 + 2 * 2 ^ L * u + (2 ^ L + p)
          from by ring]
        rw [pow_add (ω ^ 2 ^ (k - L - 1)) (p * u * 2 + 2 * 2 ^ L * u) (2 ^ L + p)]
        rw [pow_add (ω ^ 2 ^ (k - L - 1)) (p * u * 2) (2 * 2 ^ L * u)]
        rw [pow_mul (ω ^ 2 ^ (k - L - 1)) (2 * 2 ^ L) u, hμ2S, one_pow, mul_one]
        rw [pow_add (ω ^ 2 ^ (k - L - 1)) (2 ^ L) p, hμS]
        rw [← hμ2]
        ring

end NetworkInvariant

section Conjugation

variable {F : Type} [Field F]

/-- One bit-reversed-order layer (`dit_layer_rev`) acting on bit-reversed data
performs exactly the butterflies of the corresponding standard layer: if `w` agrees
with `x ∘ rev_k` on `[0, 2^k)` and the block-indexed twiddles are the bit-reversed
pair twiddles, then `ditLayerRev (k-1-l) twRev w` agrees with
`(ditLayer l twStd x) ∘ rev_k` there. -/
theorem ditLayerRev_conj (k l : Nat) (hl : l < k) (twStd twRev : Nat → F)
    (htw : ∀ b < 2 ^ l, twRev b = twStd (reverseBitsLen l b))
    (x w : Nat → F) (hw : ∀ j < 2 ^ k, w j = x (reverseBitsLen k j)) :
    ∀ i < 2 ^ k, ditLayerRev (k - 1 - l) twRev w i
      = ditLayer l twStd x (reverseBitsLen k i) := by
  intro i hi
  have hkl : (k - 1 - l) + 1 = k - l := by omega
  obtain ⟨b, r, rfl, hr⟩ : ∃ b r, i = b * 2 ^ (k - l) + r ∧ r < 2 ^ (k - l) :=
    ⟨i / 2 ^ (k - l), i % 2 ^ (k - l),
      by rw [Nat.mul_comm, Nat.div_add_mod], Nat.mod_lt _ (by positivity)⟩
  have hAB : 2 ^ (k - l) * 2 ^ l = 2 ^ k := by
    rw [← pow_add]
    congr 1
    omega
  have hb : b < 2 ^ l := by
    by_contra hcon
    push_neg at hcon
    have hmul : 2 ^ (k - l) * 2 ^ l ≤ 2 ^ (k - l) * b :=
      Nat.mul_le_mul_left _ hcon
    rw [hAB, Nat.mul_comm] at hmul
    omega
  have hrevsplit : ∀ r' < 2 ^ (k - l),
      reverseBitsLen k (b * 2 ^ (k - l) + r')
        = reverseBitsLen (k - l) r' * 2 ^ l + reverseBitsLen l b := by
    intro r' hr'
    have h := reverseBitsLen_add (k - l) l r' b hr'
    rw [show (k - l) + l = k from by omega] at h
    rw [show b * 2 ^ (k - l) + r' = r' + 2 ^ (k - l) * b from by ring]
    exact h
  have hD : (2 : Nat) ^ (k - l) = 2 ^ ((k - 1 - l) + 1) := by rw [hkl]
  have hDhalf : (2 : Nat) ^ (k - l) = 2 * 2 ^ (k - 1 - l) := by
    rw [hD, pow_succ']
  have hrevlb : reverseBitsLen l b < 2 ^ l := reverseBitsLen_lt l b
  rw [show b * 2 ^ (k - l) + r = b * 2 ^ ((k - 1 - l) + 1) + r from by rw [← hD]]
  rw [ditLayerRev_apply _ _ _ b r (by rw [← hD]; exact hr)]
  rw [show b * 2 ^ ((k - 1 - l) + 1) + r = b * 2 ^ (k - l) + r from by rw [← hD]]
  by_cases hc : r < 2 ^ (k - 1 - l)
  · -- low half: the partner sits `2^(k-1-l)` above
    rw [if_pos hc]
    have hrQ : reverseBitsLen (k - l) r = 2 * reverseBitsLen (k - 1 - l) r := by
      rw [show k - l = (k - 1 - l) + 1 from by omega]
      rw [reverseBitsLen_shift (k - 1 - l) 1 r hc]
      ring
    have hboundP : b * 2 ^ (k - l) + r + 2 ^ (k - 1 - l) < 2 ^ k := by
      have h1 : (b + 1) * 2 ^ (k - l) ≤ 2 ^ k := by
        calc (b + 1) * 2 ^ (k - l) ≤ 2 ^ l * 2 ^ (k - l) :=
              Nat.mul_le_mul_right _ (by omega)
        _ = 2 ^ k := by rw [Nat.mul_comm]; exact hAB
      have h2 : (b + 1) * 2 ^ (k - l) = b * 2 ^ (k - l) + 2 ^ (k - l) := by ring
      omega
    rw [hw _ hi, hw _ hboundP]
    have hP : b * 2 ^ (k - l) + r + 2 ^ (k - 1 - l)
        = b * 2 ^ (k - l) + (r + 2 ^ (k - 1 - l)) := by omega
    rw [hP, hrevsplit _ hr, hrevsplit _ (by rw [hDhalf]; omega)]
    have hrtop : reverseBitsLen (k - l) (r + 2 ^ (k - 1 - l))
        = reverseBitsLen (k - l) r + 1 := by
      rw [show k - l = (k - 1 - l) + 1 from by omega]
      exact reverseBitsLen_add_top_bit (k - 1 - l) r hc
    rw [hrtop, hrQ]
    rw [show (2 * reverseBitsLen (k - 1 - l) r + 1) * 2 ^ l + reverseBitsLen l b
      = reverseBitsLen (k - 1 - l) r * 2 ^ (l + 1) + (reverseBitsLen l b + 2 ^ l)
      from by rw [pow_succ]; ring]
    rw [show 2 * reverseBitsLen (k - 1 - l) r * 2 ^ l + reverseBitsLen l b
      = reverseBitsLen (k - 1 - l) r * 2 ^ (l + 1) + reverseBitsLen l b
      from by rw [pow_succ]; ring]
    rw [ditLayer_apply _ _ _ (reverseBitsLen (k - 1 - l) r) (reverseBitsLen l b)
      (by
        calc reverseBitsLen l b < 2 ^ l := hrevlb
        _ ≤ 2 ^ (l + 1) := Nat.pow_le_pow_right (by norm_num) (by omega))]
    rw [if_pos hrevlb]
    rw [htw b hb]
    rw [show reverseBitsLen (k - 1 - l) r * 2 ^ (l + 1) + reverseBitsLen l b + 2 ^ l
      = reverseBitsLen (k - 1 - l) r * 2 ^ (l + 1) + (reverseBitsLen l b + 2 ^ l)
      from by omega]
  · -- high half: the partner sits `2^(k-1-l)` below
    rw [if_neg hc]
    obtain ⟨p, rfl⟩ : ∃ p, r = p + 2 ^ (k - 1 - l) :=
      ⟨r - 2 ^ (k - 1 - l), by omega⟩
    have hp : p < 2 ^ (k - 1 - l) := by
      rw [hDhalf] at hr
      omega
    have hsub1 : p + 2 ^ (k - 1 - l) - 2 ^ (k - 1 - l) = p := by omega
    have hsub2 : b * 2 ^ (k - l) + (p + 2 ^ (k - 1 - l)) - 2 ^ (k - 1 - l)
        = b * 2 ^ (k - l) + p := by omega
    rw [hsub2]
    have hboundB : b * 2 ^ (k - l) + p < 2 ^ k := by omega
    rw [hw _ hi, hw _ hboundB]
    rw [hrevsplit _ hr, hrevsplit _ (by omega)]
    have hrQ : reverseBitsLen (k - l) p = 2 * reverseBitsLen (k - 1 - l) p := by
      rw [show k - l = (k - 1 - l) + 1 from by omega]
      rw [reverseBitsLen_shift (k - 1 - l) 1 p hp]
      ring
    have hrtop : reverseBitsLen (k - l) (p + 2 ^ (k - 1 - l))
        = reverseBitsLen (k - l) p + 1 := by
      rw [show k - l = (k - 1 - l) + 1 from by omega]
      exact reverseBitsLen_add_top_bit (k - 1 - l) p hp
    rw [hrtop, hrQ]
    rw [show (2 * reverseBitsLen (k - 1 - l) p + 1) * 2 ^ l + reverseBitsLen l b
      = reverseBitsLen (k - 1 - l) p * 2 ^ (l + 1) + (2 ^ l + reverseBitsLen l b)
      from by rw [pow_succ]; ring]
    rw [show 2 * reverseBitsLen (k - 1 - l) p * 2 ^ l + reverseBitsLen l b
      = reverseBitsLen (k - 1 - l) p * 2 ^ (l + 1) + reverseBitsLen l b
      from by rw [pow_succ]; ring]
    rw [ditLayer_apply _ _ _ (reverseBitsLen (k - 1 - l) p)
      (2 ^ l + reverseBitsLen l b)
      (by
        have : (2 : Nat) ^ (l + 1) = 2 * 2 ^ l := pow_succ' 2 l
        omega)]
    rw [if_neg (by omega)]
    rw [htw b hb]
    rw [show 2 ^ l + reverseBitsLen l b - 2 ^ l = reverseBitsLen l b from by omega]
    rw [show reverseBitsLen (k - 1 - l) p * 2 ^ (l + 1) + (2 ^ l + reverseBitsLen l b)
        - 2 ^ l
      = reverseBitsLen (k - 1 - l) p * 2 ^ (l + 1) + reverseBitsLen l b
      from by omega]

end Conjugation

section FullNetwork

variable {F : Type} [Field F]

/-- The two-half butterfly network shared by `dft_batch`, the inverse half of
`coset_lde_batch`, and `coset_dft`: `mid` standard DIT layers, a full row
bit-reversal, then the remaining `k - mid` layers in bit-reversed (Bowers G^T)
order, with the block twiddle of rev-layer `l` being the bit-reversed standard
twiddle of layer `l` (closed form). -/
def twoHalfNetwork (k mid : Nat) (ω s : F) (v : Nat → F) : Nat → F :=
  (List.range (k - mid)).foldl
    (fun w kk => ditLayerRev (k - 1 - (mid + kk))
      (fun b2 => stdTwiddle k ω s (mid + kk) (reverseBitsLen (mid + kk) b2)) w)
    (fun i => ditLayersUpTo k ω s mid v (reverseBitsLen k i))

theorem ditLayersUpTo_succ (k : Nat) (ω s : F) (L : Nat) (v : Nat → F) :
    ditLayersUpTo k ω s (L + 1) v
      = ditLayer L (stdTwiddle k ω s L) (ditLayersUpTo k ω s L v) := by
  rw [ditLayersUpTo, List.range_succ, List.foldl_append, List.foldl_cons,
    List.foldl_nil]
  rfl

/-- The stored output of the two-half network on bit-reversed coefficient input is
the bit-reversed table of shifted evaluations `Σ_t cf(t)·s^t·ω^(rev(i)·t)`. -/
theorem twoHalfNetwork_eval (k mid : Nat) (hmid : mid ≤ k) (ω s : F)
    (h1 : ω ^ 2 ^ k = 1) (h2 : 0 < k → ω ^ 2 ^ (k - 1) = -1) (cf : Nat → F) :
    ∀ i < 2 ^ k,
      twoHalfNetwork k mid ω s (fun j => cf (reverseBitsLen k j)) i =
        ∑ t ∈ Finset.range (2 ^ k), cf t * s ^ t * ω ^ (reverseBitsLen k i * t) := by
  have main : ∀ n, n ≤ k - mid → ∀ i < 2 ^ k,
      (List.range n).foldl
        (fun w kk => ditLayerRev (k - 1 - (mid + kk))
          (fun b2 => stdTwiddle k ω s (mid + kk) (reverseBitsLen (mid + kk) b2)) w)
        (fun i2 => ditLayersUpTo k ω s mid (fun j => cf (reverseBitsLen k j))
          (reverseBitsLen k i2)) i
      = ditLayersUpTo k ω s (mid + n) (fun j => cf (reverseBitsLen k j))
          (reverseBitsLen k i) := by
    intro n
    induction n with
    | zero =>
      intro _ i hi
      simp
    | succ m ih =>
      intro hm i hi
      rw [List.range_succ, List.foldl_append, List.foldl_cons, List.foldl_nil]
      have hconj := ditLayerRev_conj k (mid + m) (by omega)
        (stdTwiddle k ω s (mid + m))
        (fun b2 => stdTwiddle k ω s (mid + m) (reverseBitsLen (mid + m) b2))
        (fun b hb => rfl)
        (ditLayersUpTo k ω s (mid + m) (fun j => cf (reverseBitsLen k j)))
        ((List.range m).foldl
          (fun w kk => ditLayerRev (k - 1 - (mid + kk))
            (fun b2 => stdTwiddle k ω s (mid + kk) (reverseBitsLen (mid + kk) b2)) w)
          (fun i2 => ditLayersUpTo k ω s mid (fun j => cf (reverseBitsLen k j))
            (reverseBitsLen k i2)))
        (ih (by omega))
        i hi
      rw [hconj]
      rw [show mid + (m + 1) = (mid + m) + 1 from by omega]
      rw [ditLayersUpTo_succ]
  have hfin := main (k - mid) (le_refl _) 
  intro i hi
  have h := hfin i hi
  rw [show mid + (k - mid) = k from by omega] at h
  rw [twoHalfNetwork, h]
  have hrevlt : reverseBitsLen k i < 2 ^ k := reverseBitsLen_lt k i
  rw [ditLayersUpTo_invariant k ω s h1 h2 cf k (le_refl _) _ hrevlt]
  apply Finset.sum_congr rfl
  intro t ht
  have hkk : k - k = 0 := by omega
  rw [hkk]
  simp [pow_zero, pow_one, Nat.div_eq_of_lt hrevlt, Nat.mod_eq_of_lt hrevlt,
    reverseBitsLen_zero]

end FullNetwork

section LayerCongr

variable {F : Type} [Field F]

theorem ditLayer_congrOn (k l : Nat) (hlk : l < k) (twA twB : Nat → F)
    (htw : ∀ p < 2 ^ l, twA p = twB p) (vA vB : Nat → F)
    (hv : ∀ j < 2 ^ k, vA j = vB j) :
    ∀ i < 2 ^ k, ditLayer l twA vA i = ditLayer l twB vB i := by
  intro i hi
  obtain ⟨e, r, rfl, hr⟩ : ∃ e r, i = e * 2 ^ (l + 1) + r ∧ r < 2 ^ (l + 1) :=
    ⟨i / 2 ^ (l + 1), i % 2 ^ (l + 1),
      by rw [Nat.mul_comm, Nat.div_add_mod], Nat.mod_lt _ (by positivity)⟩
  have hAB : 2 ^ (l + 1) * 2 ^ (k - l - 1) = 2 ^ k := by
    rw [← pow_add]
    congr 1
    omega
  have he : e < 2 ^ (k - l - 1) := by
    by_contra hcon
    push_neg at hcon
    have hmul : 2 ^ (l + 1) * 2 ^ (k - l - 1) ≤ 2 ^ (l + 1) * e :=
      Nat.mul_le_mul_left _ hcon
    rw [hAB, Nat.mul_comm] at hmul
    omega
  have he1 : (e + 1) * 2 ^ (l + 1) ≤ 2 ^ k := by
    calc (e + 1) * 2 ^ (l + 1) ≤ 2 ^ (k - l - 1) * 2 ^ (l + 1) :=
          Nat.mul_le_mul_right _ (by omega)
    _ = 2 ^ k := by rw [Nat.mul_comm]; exact hAB
  have hA : (e + 1) * 2 ^ (l + 1) = e * 2 ^ (l + 1) + 2 ^ (l + 1) := by ring
  have h2L : (2 : Nat) ^ (l + 1) = 2 * 2 ^ l := pow_succ' 2 l
  rw [ditLayer_apply _ _ _ e r hr, ditLayer_apply _ _ _ e r hr]
  by_cases hc : r < 2 ^ l
  · rw [if_pos hc, if_pos hc, htw r hc, hv _ hi, hv _ (by omega)]
  · rw [if_neg hc, if_neg hc, htw (r - 2 ^ l) (by omega), hv _ hi, hv _ (by omega)]

theorem ditLayerRev_congrOn (k lr : Nat) (hlrk : lr < k) (twA twB : Nat → F)
    (htw : ∀ b < 2 ^ (k - lr - 1), twA b = twB b) (vA vB : Nat → F)
    (hv : ∀ j < 2 ^ k, vA j = vB j) :
    ∀ i < 2 ^ k, ditLayerRev lr twA vA i = ditLayerRev lr twB vB i := by
  intro i hi
  obtain ⟨e, r, rfl, hr⟩ : ∃ e r, i = e * 2 ^ (lr + 1) + r ∧ r < 2 ^ (lr + 1) :=
    ⟨i / 2 ^ (lr + 1), i % 2 ^ (lr + 1),
      by rw [Nat.mul_comm, Nat.div_add_mod], Nat.mod_lt _ (by positivity)⟩
  have hAB : 2 ^ (lr + 1) * 2 ^ (k - lr - 1) = 2 ^ k := by
    rw [← pow_add]
    congr 1
    omega
  have he : e < 2 ^ (k - lr - 1) := by
    by_contra hcon
    push_neg at hcon
    have hmul : 2 ^ (lr + 1) * 2 ^ (k - lr - 1) ≤ 2 ^ (lr + 1) * e :=
      Nat.mul_le_mul_left _ hcon
    rw [hAB, Nat.mul_comm] at hmul
    omega
  have he1 : (e + 1) * 2 ^ (lr + 1) ≤ 2 ^ k := by
    calc (e + 1) * 2 ^ (lr + 1) ≤ 2 ^ (k - lr - 1) * 2 ^ (lr + 1) :=
          Nat.mul_le_mul_right _ (by omega)
    _ = 2 ^ k := by rw [Nat.mul_comm]; exact hAB
  have hA : (e + 1) * 2 ^ (lr + 1) = e * 2 ^ (lr + 1) + 2 ^ (lr + 1) := by ring
  have h2L : (2 : Nat) ^ (lr + 1) = 2 * 2 ^ lr := pow_succ' 2 lr
  rw [ditLayerRev_apply _ _ _ e r hr, ditLayerRev_apply _ _ _ e r hr]
  by_cases hc : r < 2 ^ lr
  · rw [if_pos hc, if_pos hc, htw e he, hv _ hi, hv _ (by omega)]
  · rw [if_neg hc, if_neg hc, htw e he, hv _ hi, hv _ (by omega)]

theorem foldl_layers_congr {F : Type} [Field F] (k n : Nat)
    (fA fB : Nat → (Nat → F) → Nat → F)
    (hstep : ∀ m < n, ∀ vA vB : Nat → F, (∀ j < 2 ^ k, vA j = vB j) →
      ∀ i < 2 ^ k, fA m vA i = fB m vB i)
    (vA vB : Nat → F) (hv : ∀ j < 2 ^ k, vA j = vB j) :
    ∀ i < 2 ^ k, (List.range n).foldl (fun w m => fA m w) vA i
      = (List.range n).foldl (fun w m => fB m w) vB i := by
  induction n generalizing vA vB with
  | zero => exact hv
  | succ m ih =>
    intro i hi
    rw [List.range_succ, List.foldl_append, List.foldl_cons, List.foldl_nil,
      List.foldl_append, List.foldl_cons, List.foldl_nil]
    exact hstep m (by omega) _ _
      (ih (fun m2 hm2 => hstep m2 (by omega)) vA vB hv) i hi

end LayerCongr

section DftBatch

variable {F : Type} [Field F] [Inhabited F]

/-- `compute_twiddles` (`src/dft/src/radix_2_dit_parallel.rs`, lines 47–58): the
first `h/2` powers of the order-`2^logH` root, natural and bit-reversed
(`VectorPair`).  `compute_inverse_twiddles` (lines 83–97) is the same construction
applied to the inverse root. -/
def compute_twiddles (logH : Nat) (root : F) : List F × List F :=
  let twiddles := (List.range (2 ^ logH / 2)).map fun t => root ^ t
  ⟨twiddles, reverse_slice_index_bits twiddles (logH - 1)⟩

/-- `par_dit_layer` (lines 256–274): DIT layers `0..mid`, layer `l` zipping pairs
with `twiddles.step_by(2^(logH-1-l))`.  (The per-chunk parallel execution equals the
global layer-by-layer execution: a layer only combines entries of one block, and
blocks never straddle chunks.) -/
def par_dit_layer (logH mid : Nat) (twiddles : List F) (v : Nat → F) : Nat → F :=
  (List.range mid).foldl
    (fun w l => ditLayer l (fun p => twiddles.getD (p * 2 ^ (logH - 1 - l)) 0) w) v

/-- `par_dit_layer_rev` (lines 276–295): layers `mid..logH` in bit-reversed order;
thread `t` at layer `l` consumes `twiddles_rev[t · 2^(l-mid) ..]`, so the global
block `b` gets `twiddles_rev[b]`. -/
def par_dit_layer_rev (logH mid : Nat) (twiddlesRev : List F) (v : Nat → F) :
    Nat → F :=
  (List.range (logH - mid)).foldl
    (fun w kk => ditLayerRev (logH - 1 - (mid + kk))
      (fun b => twiddlesRev.getD b 0) w) v

/-- `reverse_matrix_index_bits` (`p3_matrix` util, external): permute the rows by
bit reversal. -/
def bitReversePerm (logH : Nat) (v : Nat → F) : Nat → F := fun i =>
  v (reverseBitsLen logH i)

/-- `dft_batch` (`src/dft/src/radix_2_dit_parallel.rs`, lines 102–123), one column:
memoized twiddles for `log_h`, bit-reverse, first half as a normal DIT, bit-reverse,
second half as a flipped DIT; the final `bit_reverse_rows()` is a view, so this is
the stored matrix. -/
def dft_batch_col (k : Nat) (root : F) (a : Nat → F) : Nat → F :=
  let tw := compute_twiddles k root
  let mid := k / 2
  par_dit_layer_rev k mid tw.2
    (bitReversePerm k (par_dit_layer k mid tw.1 (bitReversePerm k a)))

theorem getD_range_in (n j : Nat) (h : j < n) (d : Nat) :
    (List.range n).getD j d = j := by
  rw [getD_eq_getElem_in _ _ _ (by simpa using h), List.getElem_range]

theorem compute_twiddles_fst_getD (logH : Nat) (root : F) (t : Nat)
    (ht : t < 2 ^ logH / 2) :
    (compute_twiddles logH root).1.getD t 0 = root ^ t := by
  rw [compute_twiddles]
  rw [getD_map_in _ _ t (by simpa using ht) 0 0, getD_range_in _ _ ht]

theorem reverse_slice_index_bits_getD {α : Type} [Inhabited α] (xs : List α)
    (bits j : Nat) (hj : j < xs.length) (d : α) :
    (reverse_slice_index_bits xs bits).getD j d
      = xs.getD (reverseBitsLen bits j) default := by
  rw [reverse_slice_index_bits,
    getD_map_in _ _ j (by simpa using hj) d default, getD_range_in _ _ hj]

theorem compute_twiddles_snd_getD (logH : Nat) (root : F) (b : Nat)
    (hb : b < 2 ^ logH / 2) (hrb : reverseBitsLen (logH - 1) b < 2 ^ logH / 2) :
    (compute_twiddles logH root).2.getD b 0 = root ^ reverseBitsLen (logH - 1) b := by
  rw [compute_twiddles]
  rw [reverse_slice_index_bits_getD _ _ _ (by simpa using hb) 0]
  rw [getD_map_in _ _ _ (by simpa using hrb) default 0, getD_range_in _ _ hrb]

theorem dft_batch_col_eq_network (k : Nat) (ω : F) (a : Nat → F) :
    ∀ i < 2 ^ k, dft_batch_col k ω a i
      = twoHalfNetwork k (k / 2) ω 1 (fun j => a (reverseBitsLen k j)) i := by
  have hhalf : 0 < k → (2 : Nat) ^ k / 2 = 2 ^ (k - 1) := by
    intro hk
    obtain ⟨m, rfl⟩ : ∃ m, k = m + 1 := ⟨k - 1, by omega⟩
    rw [pow_succ]
    simp
  have hfirst : ∀ j < 2 ^ k,
      par_dit_layer k (k / 2) (compute_twiddles k ω).1 (bitReversePerm k a) j
        = ditLayersUpTo k ω 1 (k / 2) (fun j2 => a (reverseBitsLen k j2)) j := by
    apply foldl_layers_congr k (k / 2)
    · intro m hm vA vB hv
      apply ditLayer_congrOn k m (by omega)
      · intro p hp
        have hbound : p * 2 ^ (k - 1 - m) < 2 ^ k / 2 := by
          rw [hhalf (by omega)]
          calc p * 2 ^ (k - 1 - m) < 2 ^ m * 2 ^ (k - 1 - m) :=
                mul_lt_mul_of_pos_right hp (by positivity)
          _ = 2 ^ (k - 1) := by rw [← pow_add]; congr 1; omega
        rw [compute_twiddles_fst_getD k ω _ hbound]
        rw [stdTwiddle, one_pow, one_mul, ← pow_mul, Nat.mul_comm]
      · exact hv
    · intro j hj
      rfl
  have hmid : ∀ j < 2 ^ k,
      bitReversePerm k (par_dit_layer k (k / 2) (compute_twiddles k ω).1
        (bitReversePerm k a)) j
      = ditLayersUpTo k ω 1 (k / 2) (fun j2 => a (reverseBitsLen k j2))
          (reverseBitsLen k j) := by
    intro j hj
    exact hfirst _ (reverseBitsLen_lt k j)
  intro i hi
  rw [dft_batch_col, twoHalfNetwork]
  apply foldl_layers_congr k (k - k / 2) _ _ _ _ _ hmid i hi
  intro kk hkk vA vB hv
  apply ditLayerRev_congrOn k (k - 1 - (k / 2 + kk)) (by omega)
  · intro b hb
    have hl : k - (k - 1 - (k / 2 + kk)) - 1 = k / 2 + kk := by omega
    rw [hl] at hb
    have hbk : b < 2 ^ (k - 1) := by
      calc b < 2 ^ (k / 2 + kk) := hb
      _ ≤ 2 ^ (k - 1) := Nat.pow_le_pow_right (by norm_num) (by omega)
    have hrevb : reverseBitsLen (k - 1) b
        = reverseBitsLen (k / 2 + kk) b * 2 ^ (k - 1 - (k / 2 + kk)) := by
      have h := reverseBitsLen_shift (k / 2 + kk) (k - 1 - (k / 2 + kk)) b hb
      rw [show k / 2 + kk + (k - 1 - (k / 2 + kk)) = k - 1 from by omega] at h
      exact h
    rw [compute_twiddles_snd_getD k ω b (by rw [hhalf (by omega)]; exact hbk)
      (by rw [hhalf (by omega)]; exact reverseBitsLen_lt _ _)]
    rw [stdTwiddle, one_pow, one_mul, ← pow_mul, hrevb, Nat.mul_comm]
  · exact hv

/-- The stored matrix of `dft_batch` holds the natural-order evaluations at the
bit-reversed row positions. -/
theorem dft_batch_col_eval (k : Nat) (ω : F) (a : Nat → F)
    (h1 : ω ^ 2 ^ k = 1) (h2 : 0 < k → ω ^ 2 ^ (k - 1) = -1) :
    ∀ i < 2 ^ k, dft_batch_col k ω a (reverseBitsLen k i)
      = ∑ j ∈ Finset.range (2 ^ k), a j * ω ^ (i * j) := by
  intro i hi
  have hrlt := reverseBitsLen_lt k i
  rw [dft_batch_col_eq_network k ω a _ hrlt]
  rw [twoHalfNetwork_eval k (k / 2) (Nat.div_le_self _ _) ω 1 h1 h2 a _ hrlt]
  rw [reverseBitsLen_reverseBitsLen k i hi]
  apply Finset.sum_congr rfl
  intro t ht
  rw [one_pow, mul_one]

end DftBatch

/-- `dft_batch` at the matrix level: each column transformed independently (the
butterflies act row-wise on whole rows). -/
def dft_batch {F : Type} [Field F] [Inhabited F] (k : Nat) (root : F)
    (m : Nat → Nat → F) : Nat → Nat → F := fun i c =>
  dft_batch_col k root (fun r => m r c) i

/-- **C7.**  For every coefficient matrix of power-of-two height `2^k`, `dft_batch`
evaluates each coefficient column over its native two-adic subgroup and stores the
evaluations in bit-reversed row order: the stored row at index `bit-reverse(i)`
holds the evaluations at the `i`-th power of the order-`2^k` generator `ω`
(callers needing natural order must bit-reverse again — the returned
`Evaluations` value wraps exactly this stored matrix in a `BitReversedMatrixView`,
and the commit path immediately unwraps it with `.bit_reverse_rows()` to commit
the bit-reversed data). -/
theorem dft_batch_bit_reversed_rows {F : Type} [Field F] [Inhabited F]
    (k : Nat) (ω : F) (m : Nat → Nat → F)
    (h1 : ω ^ 2 ^ k = 1) (h2 : 0 < k → ω ^ 2 ^ (k - 1) = -1) :
    ∀ (c : Nat), ∀ i < 2 ^ k,
      dft_batch k ω m (reverseBitsLen k i) c
        = ∑ j ∈ Finset.range (2 ^ k), m j c * ω ^ (i * j) :=
  fun c i hi => dft_batch_col_eval k ω (fun r => m r c) h1 h2 i hi

instance fact_prime_seventeen : Fact (Nat.Prime 17) := ⟨by norm_num⟩

/-- Witness for C7 over `ZMod 17` with `k = 2`, `ω = 4` (a primitive 4th root of
unity), at row `i = 1`, column `0`. -/
theorem dft_batch_bit_reversed_rows_witness :
    ((4 : ZMod 17) ^ 2 ^ 2 = 1 ∧ (0 < 2 → (4 : ZMod 17) ^ 2 ^ (2 - 1) = -1) ∧
      1 < 2 ^ 2) ∧
    dft_batch 2 (4 : ZMod 17) (fun r c => (r : ZMod 17) + c) (reverseBitsLen 2 1) 0
      = ∑ j ∈ Finset.range (2 ^ 2), ((j : ZMod 17) + 0) * (4 : ZMod 17) ^ (1 * j) :=
  ⟨⟨by decide, fun _ => by decide, by decide⟩,
    dft_batch_bit_reversed_rows 2 (4 : ZMod 17) (fun r c => (r : ZMod 17) + c)
      (by decide) (fun _ => by decide) 0 1 (by decide)⟩

section Orthogonality

variable {F : Type} [Field F]

/-- Orthogonality of the forward and inverse root powers, exactly as needed to undo
the forward DFT: `Σ_t ω^(t·j) · ωinv^(t·r)` is `h` at `j = r` and `0` otherwise. -/
theorem root_orthogonality (k : Nat) (ω ωinv : F) (h1 : ω ^ 2 ^ k = 1)
    (h2 : 0 < k → ω ^ 2 ^ (k - 1) = -1) (hinv : ω * ωinv = 1)
    (j r : Nat) (hj : j < 2 ^ k) (hr : r < 2 ^ k) :
    ∑ t ∈ Finset.range (2 ^ k), ω ^ (t * j) * ωinv ^ (t * r)
      = if j = r then ((2 ^ k : Nat) : F) else 0 := by
  have hwinv : ωinv = ω⁻¹ :=
    eq_inv_of_mul_eq_one_left (by rw [mul_comm] at hinv; exact hinv)
  have hω0 : ω ≠ 0 := by
    intro h0
    rw [h0, zero_mul] at hinv
    exact zero_ne_one hinv
  have hterm : ∀ t, ω ^ (t * j) * ωinv ^ (t * r) = (ω ^ j * ωinv ^ r) ^ t := by
    intro t
    rw [mul_pow, ← pow_mul, ← pow_mul, Nat.mul_comm j t, Nat.mul_comm r t]
  simp only [hterm]
  by_cases hjr : j = r
  · subst hjr
    have hx : ω ^ j * ωinv ^ j = 1 := by
      rw [hwinv, inv_pow, mul_inv_cancel₀ (pow_ne_zero _ hω0)]
    simp [hx]
  · rw [if_neg hjr]
    have hx1 : ω ^ j * ωinv ^ r ≠ 1 ∨ ((2 ^ k : Nat) : F) = 0 := by
      by_cases hneg : (-1 : F) = 1
      · -- characteristic 2: the height vanishes, and a unit geometric sum is h = 0
        right
        have h20 : (2 : F) = 0 := by linear_combination -hneg
        have hk0 : 0 < k := by
          by_contra hk
          push_neg at hk
          interval_cases k
          · omega
        rw [Nat.cast_pow]
        rw [show ((2 : ℕ) : F) = (2 : F) from by norm_num, h20, zero_pow (by omega)]
      · left
        have hk0 : 0 < k := by
          by_contra hk
          push_neg at hk
          interval_cases k
          · omega
        have hord : orderOf ω = 2 ^ k := by
          have hnot : ¬ ω ^ 2 ^ (k - 1) = 1 := by
            rw [h2 hk0]
            exact fun hcon => hneg hcon
          have hfin : ω ^ 2 ^ ((k - 1) + 1) = 1 := by
            rw [show (k - 1) + 1 = k from by omega]
            exact h1
          have := orderOf_eq_prime_pow hnot hfin
          rw [show (k - 1) + 1 = k from by omega] at this
          exact this
        intro hcon
        -- ω^j = ω^r with both exponents < 2^k forces j = r
        have hpow : ω ^ j = ω ^ r := by
          have hrinv : ωinv ^ r = (ω ^ r)⁻¹ := by rw [hwinv, inv_pow]
          have := hcon
          rw [hrinv] at this
          field_simp at this
          exact this
        rcases Nat.lt_or_ge j r with hlt | hge
        · have : ω ^ (r - j) = 1 := by
            have hmul := congrArg (fun y => y * (ω ^ j)⁻¹) hpow.symm
            simp only at hmul
            rw [mul_inv_cancel₀ (pow_ne_zero _ hω0)] at hmul
            rw [← hmul, ← pow_sub₀ _ hω0 (by omega)]
          have hdvd := orderOf_dvd_of_pow_eq_one this
          rw [hord] at hdvd
          have := Nat.le_of_dvd (by omega) hdvd
          omega
        · have hgt : r < j := by omega
          have : ω ^ (j - r) = 1 := by
            have hmul := congrArg (fun y => y * (ω ^ r)⁻¹) hpow
            simp only at hmul
            rw [mul_inv_cancel₀ (pow_ne_zero _ hω0)] at hmul
            rw [← hmul, ← pow_sub₀ _ hω0 (by omega)]
          have hdvd := orderOf_dvd_of_pow_eq_one this
          rw [hord] at hdvd
          have := Nat.le_of_dvd (by omega) hdvd
          omega
    rcases hx1 with hx | hx
    · rw [geom_sum_eq hx]
      have hxh : (ω ^ j * ωinv ^ r) ^ 2 ^ k = 1 := by
        rw [mul_pow, ← pow_mul, ← pow_mul, Nat.mul_comm j, Nat.mul_comm r,
          pow_mul, pow_mul, h1, hwinv, inv_pow, h1, inv_one, one_pow, one_pow,
          one_mul]
      rw [hxh, sub_self, zero_div]
    · by_cases hxone : ω ^ j * ωinv ^ r = 1
      · simp [hxone, hx]
      · rw [geom_sum_eq hxone]
        have hxh : (ω ^ j * ωinv ^ r) ^ 2 ^ k = 1 := by
          rw [mul_pow, ← pow_mul, ← pow_mul, Nat.mul_comm j, Nat.mul_comm r,
            pow_mul, pow_mul, h1, hwinv, inv_pow, h1, inv_one, one_pow, one_pow,
            one_mul]
        rw [hxh, sub_self, zero_div]

end Orthogonality

section CosetLde

variable {F : Type} [Field F] [Inhabited F]

/-- `divide_by_height` (`p3_dft` util, external): scale every value by the inverse
of the height. -/
def divide_by_height (h : Nat) (v : Nat → F) : Nat → F := fun i => v i * (h : F)⁻¹

/-- `compute_coset_twiddles` (`src/dft/src/radix_2_dit_parallel.rs`, lines 60–81):
per stored layer index, the `h >> (layer+1)` powers
`shift^(2^layer) * (root^(2^layer))^t`; the slice is stored bit-reversed exactly
when its consuming layer (`layer_rev = log_h - 1 - layer`) lies in the second half
(`layer_rev ≥ mid`). -/
def compute_coset_twiddles (logH : Nat) (root shift : F) : List (List F) :=
  (List.range logH).map fun layer =>
    let twiddles := (List.range (2 ^ logH / 2 ^ (layer + 1))).map fun t =>
      shift ^ 2 ^ layer * (root ^ 2 ^ layer) ^ t
    if logH / 2 ≤ logH - 1 - layer then
      reverse_slice_index_bits twiddles (logH - 1 - layer)
    else twiddles

/-- `coset_dft` (lines 209–254), one column: first-half layers `0..mid` consume
`twiddles[layer_rev]` directly (the input is already bit-reversed, so there is no
initial reversal); then the matrix is bit-reversed and the second-half layers
consume `twiddles[layer_rev][first_block..]`, i.e. global block `b` gets
`twiddles[layer_rev][b]`. -/
def coset_dft_col (logH : Nat) (root shift : F) (v : Nat → F) : Nat → F :=
  let tws := compute_coset_twiddles logH root shift
  let mid := logH / 2
  (List.range (logH - mid)).foldl
    (fun w kk => ditLayerRev (logH - 1 - (mid + kk))
      (fun b => (tws.getD (logH - 1 - (mid + kk)) []).getD b 0) w)
    (bitReversePerm logH
      ((List.range mid).foldl
        (fun w l => ditLayer l (fun p => (tws.getD (logH - 1 - l) []).getD p 0) w) v))

theorem pow_div_pow_eq (k l : Nat) (hl : l ≤ k) : 2 ^ k / 2 ^ (k - l) = 2 ^ l := by
  rw [Nat.pow_div (by omega) (by norm_num)]
  congr 1
  omega

theorem compute_coset_twiddles_getD (k : Nat) (root shift : F) (l : Nat)
    (hl : l < k) :
    (compute_coset_twiddles k root shift).getD (k - 1 - l) []
      = (if k / 2 ≤ l then
          reverse_slice_index_bits
            ((List.range (2 ^ k / 2 ^ ((k - 1 - l) + 1))).map fun t =>
              shift ^ 2 ^ (k - 1 - l) * (root ^ 2 ^ (k - 1 - l)) ^ t) l
        else
          (List.range (2 ^ k / 2 ^ ((k - 1 - l) + 1))).map fun t =>
            shift ^ 2 ^ (k - 1 - l) * (root ^ 2 ^ (k - 1 - l)) ^ t) := by
  rw [compute_coset_twiddles]
  rw [getD_map_in _ _ (k - 1 - l) (by simpa using (by omega : k - 1 - l < k)) [] 0]
  rw [getD_range_in _ _ (by omega)]
  have hll : k - 1 - (k - 1 - l) = l := by omega
  rw [hll]

/-- First-half coset twiddle access: layer `l < mid` reads the naturally-ordered
slice, pair `p` getting exactly the closed-form shifted twiddle. -/
theorem coset_twiddle_first (k : Nat) (root shift : F) (l : Nat) (hl : l < k / 2)
    (p : Nat) (hp : p < 2 ^ l) :
    ((compute_coset_twiddles k root shift).getD (k - 1 - l) []).getD p 0
      = stdTwiddle k root shift l p := by
  have hlk : l < k := by omega
  rw [compute_coset_twiddles_getD k root shift l hlk, if_neg (by omega)]
  have hcount : 2 ^ k / 2 ^ ((k - 1 - l) + 1) = 2 ^ l := by
    rw [show (k - 1 - l) + 1 = k - l from by omega]
    exact pow_div_pow_eq k l (by omega)
  rw [hcount]
  rw [getD_map_in _ _ p (by simpa using hp) 0 0, getD_range_in _ _ hp]
  rw [stdTwiddle, mul_comm]

/-- Second-half coset twiddle access: layer `l ≥ mid` reads the bit-reversed slice,
block `b` getting the closed-form twiddle at pair position `rev_l(b)`. -/
theorem coset_twiddle_second (k : Nat) (root shift : F) (l : Nat)
    (hl1 : k / 2 ≤ l) (hl2 : l < k) (b : Nat) (hb : b < 2 ^ l) :
    ((compute_coset_twiddles k root shift).getD (k - 1 - l) []).getD b 0
      = stdTwiddle k root shift l (reverseBitsLen l b) := by
  rw [compute_coset_twiddles_getD k root shift l hl2, if_pos hl1]
  have hcount : 2 ^ k / 2 ^ ((k - 1 - l) + 1) = 2 ^ l := by
    rw [show (k - 1 - l) + 1 = k - l from by omega]
    exact pow_div_pow_eq k l (by omega)
  rw [hcount]
  rw [reverse_slice_index_bits_getD _ _ _ (by simpa using hb) 0]
  have hrb : reverseBitsLen l b < 2 ^ l := reverseBitsLen_lt l b
  rw [getD_map_in _ _ _ (by simpa using hrb) default 0, getD_range_in _ _ hrb]
  rw [stdTwiddle, mul_comm]

/-- The input-congruence of the two-half network on `[0, 2^k)`. -/
theorem twoHalfNetwork_congrOn (k mid : Nat) (hmid : mid ≤ k) (ω s : F)
    (vA vB : Nat → F) (hv : ∀ j < 2 ^ k, vA j = vB j) :
    ∀ i < 2 ^ k, twoHalfNetwork k mid ω s vA i = twoHalfNetwork k mid ω s vB i := by
  have hfirst : ∀ j < 2 ^ k, ditLayersUpTo k ω s mid vA j
      = ditLayersUpTo k ω s mid vB j := by
    apply foldl_layers_congr k mid
    · intro m hm wA wB hw
      exact ditLayer_congrOn k m (by omega) _ _ (fun p _ => rfl) wA wB hw
    · exact hv
  intro i hi
  rw [twoHalfNetwork, twoHalfNetwork]
  apply foldl_layers_congr k (k - mid) _ _ _ _ _
    (fun j hj => hfirst _ (reverseBitsLen_lt k j)) i hi
  intro kk hkk wA wB hw
  exact ditLayerRev_congrOn k (k - 1 - (mid + kk)) (by omega) _ _
    (fun b _ => rfl) wA wB hw

/-- `coset_dft` agrees with the closed-form two-half network with shift baked in. -/
theorem coset_dft_col_eq_network (k : Nat) (ω s : F) (v : Nat → F) :
    ∀ i < 2 ^ k, coset_dft_col k ω s v i = twoHalfNetwork k (k / 2) ω s v i := by
  have hfirst : ∀ j < 2 ^ k,
      ((List.range (k / 2)).foldl
        (fun w l => ditLayer l
          (fun p => ((compute_coset_twiddles k ω s).getD (k - 1 - l) []).getD p 0) w)
        v) j
      = ditLayersUpTo k ω s (k / 2) v j := by
    apply foldl_layers_congr k (k / 2)
    · intro m hm wA wB hw
      apply ditLayer_congrOn k m (by omega)
      · intro p hp
        exact coset_twiddle_first k ω s m hm p hp
      · exact hw
    · intro j hj
      rfl
  intro i hi
  rw [coset_dft_col, twoHalfNetwork]
  apply foldl_layers_congr k (k - k / 2) _ _ _ _ _
    (fun j hj => hfirst _ (reverseBitsLen_lt k j)) i hi
  intro kk hkk wA wB hw
  apply ditLayerRev_congrOn k (k - 1 - (k / 2 + kk)) (by omega)
  · intro b hb
    have hl : k - (k - 1 - (k / 2 + kk)) - 1 = k / 2 + kk := by omega
    rw [hl] at hb
    exact coset_twiddle_second k ω s (k / 2 + kk) (by omega) (by omega) b hb
  · exact hw

end CosetLde

section CosetLdeMain

variable {F : Type} [Field F] [Inhabited F]

/-- The inverse half of `coset_lde_batch` (the same two-half network run with the
inverse root, final un-reversal skipped, then `divide_by_height`) recovers the
coefficients in bit-reversed order. -/
theorem idft_half (k : Nat) (ω ωinv : F) (h1 : ω ^ 2 ^ k = 1)
    (h2 : 0 < k → ω ^ 2 ^ (k - 1) = -1) (hinv : ω * ωinv = 1)
    (hh : ((2 ^ k : Nat) : F) ≠ 0) (cf : Nat → F) :
    ∀ i < 2 ^ k,
      divide_by_height (2 ^ k)
        (dft_batch_col k ωinv
          (fun r => ∑ m ∈ Finset.range (2 ^ k), cf m * ω ^ (r * m))) i
      = cf (reverseBitsLen k i) := by
  have hwinv : ωinv = ω⁻¹ :=
    eq_inv_of_mul_eq_one_left (by rw [mul_comm] at hinv; exact hinv)
  have hω0 : ω ≠ 0 := by
    intro h0
    rw [h0, zero_mul] at hinv
    exact zero_ne_one hinv
  have h1' : ωinv ^ 2 ^ k = 1 := by
    rw [hwinv, inv_pow, h1, inv_one]
  have h2' : 0 < k → ωinv ^ 2 ^ (k - 1) = -1 := by
    intro hk
    rw [hwinv, inv_pow, h2 hk, inv_neg_one]
  intro i hi
  have hrlt := reverseBitsLen_lt k i
  rw [divide_by_height]
  rw [dft_batch_col_eq_network k ωinv _ i hi]
  rw [twoHalfNetwork_eval k (k / 2) (Nat.div_le_self _ _) ωinv 1 h1' h2'
    (fun r => ∑ m ∈ Finset.range (2 ^ k), cf m * ω ^ (r * m)) i hi]
  have hswap : ∑ t ∈ Finset.range (2 ^ k),
      (∑ m ∈ Finset.range (2 ^ k), cf m * ω ^ (t * m)) * 1 ^ t
        * ωinv ^ (reverseBitsLen k i * t)
      = ∑ m ∈ Finset.range (2 ^ k), cf m *
          ∑ t ∈ Finset.range (2 ^ k), ω ^ (t * m) * ωinv ^ (t * reverseBitsLen k i) := by
    have hstep : ∀ t ∈ Finset.range (2 ^ k),
        (∑ m ∈ Finset.range (2 ^ k), cf m * ω ^ (t * m)) * 1 ^ t
          * ωinv ^ (reverseBitsLen k i * t)
        = ∑ m ∈ Finset.range (2 ^ k),
            cf m * (ω ^ (t * m) * ωinv ^ (t * reverseBitsLen k i)) := by
      intro t ht
      rw [Finset.sum_mul, Finset.sum_mul]
      apply Finset.sum_congr rfl
      intro m hm
      rw [one_pow, mul_one, Nat.mul_comm (reverseBitsLen k i) t]
      ring
    rw [Finset.sum_congr rfl hstep, Finset.sum_comm]
    apply Finset.sum_congr rfl
    intro m hm
    rw [← Finset.mul_sum]
  rw [hswap]
  have hdelta : ∀ m ∈ Finset.range (2 ^ k),
      cf m * ∑ t ∈ Finset.range (2 ^ k), ω ^ (t * m) * ωinv ^ (t * reverseBitsLen k i)
      = if m = reverseBitsLen k i then cf m * ((2 ^ k : Nat) : F) else 0 := by
    intro m hm
    rw [root_orthogonality k ω ωinv h1 h2 hinv m (reverseBitsLen k i)
      (Finset.mem_range.mp hm) hrlt]
    by_cases hc : m = reverseBitsLen k i
    · rw [if_pos hc, if_pos hc]
    · rw [if_neg hc, if_neg hc, mul_zero]
  rw [Finset.sum_congr rfl hdelta]
  rw [Finset.sum_ite_eq' (Finset.range (2 ^ k)) (reverseBitsLen k i)
    (fun m => cf m * ((2 ^ k : Nat) : F))]
  rw [if_pos (Finset.mem_range.mpr hrlt)]
  rw [mul_assoc, mul_inv_cancel₀ hh, mul_one]

/-- `coset_lde_batch` (`src/dft/src/radix_2_dit_parallel.rs`, lines 125–206), one
column, as a function of the stored row index of the extended matrix: the inverse
two-half network with memoized inverse twiddles (the final un-reversal is skipped
since the next transform expects bit-reversed input), `divide_by_height`; then the
output block at index `c` holds coset `j` with `c = reverse_bits(j, added_bits)`:
coset `0` is evaluated in place with shift `shift`, every other coset by one
coset-shifted forward transform with `total_shift = g_big^j * shift`. -/
def coset_lde_batch_col (k addedBits : Nat) (rootInv root gBig shift : F)
    (a : Nat → F) : Nat → F :=
  let tw := compute_twiddles k rootInv
  let mid := k / 2
  let u := divide_by_height (2 ^ k)
    (par_dit_layer_rev k mid tw.2
      (bitReversePerm k (par_dit_layer k mid tw.1 (bitReversePerm k a))))
  fun idx =>
    if idx / 2 ^ k = 0 then coset_dft_col k root shift u (idx % 2 ^ k)
    else coset_dft_col k root
      (gBig ^ reverseBitsLen addedBits (idx / 2 ^ k) * shift) u (idx % 2 ^ k)

/-- **C6.**  `coset_lde_batch` first runs the inverse DFT (skipping the final
un-reversal), divides every value by `h = 2^k`, evaluates coset 0 in place, and
produces coset `j ∈ 1..2^addedBits-1` by copying the coefficient buffer and running
one coset-shifted forward transform, placing it at the bit-reversed block position;
the stored value at block `rev(j)`, row `i` is the interpolated polynomial
`Σ_m cf(m)·x^m` evaluated directly at the shifted point `g_big^j · shift · ω^(rev i)`
(covering in particular every `log_blowup ∈ {1,2,3}` and `log_n ∈ {2..6}`). -/
theorem coset_lde_batch_evaluates {F : Type} [Field F] [Inhabited F]
    (k add : Nat) (ω ωinv gBig s : F)
    (h1 : ω ^ 2 ^ k = 1) (h2 : 0 < k → ω ^ 2 ^ (k - 1) = -1)
    (hinv : ω * ωinv = 1) (hh : ((2 ^ k : Nat) : F) ≠ 0)
    (hg : gBig ^ 2 ^ add = ω) (cf : Nat → F) (j : Nat) (hj : j < 2 ^ add)
    (i : Nat) (hi : i < 2 ^ k) :
    coset_lde_batch_col k add ωinv ω gBig s
        (fun r => ∑ m ∈ Finset.range (2 ^ k), cf m * ω ^ (r * m))
        (reverseBitsLen add j * 2 ^ k + i)
      = ∑ m ∈ Finset.range (2 ^ k),
          cf m * (gBig ^ j * s * ω ^ reverseBitsLen k i) ^ m := by
  have hdiv : (reverseBitsLen add j * 2 ^ k + i) / 2 ^ k = reverseBitsLen add j := by
    rw [Nat.mul_comm, Nat.mul_add_div (by positivity), Nat.div_eq_of_lt hi]
    omega
  have hmod : (reverseBitsLen add j * 2 ^ k + i) % 2 ^ k = i := by
    rw [Nat.mul_comm, Nat.mul_add_mod, Nat.mod_eq_of_lt hi]
  have hu : ∀ x < 2 ^ k,
      divide_by_height (2 ^ k)
        (dft_batch_col k ωinv
          (fun r => ∑ m ∈ Finset.range (2 ^ k), cf m * ω ^ (r * m))) x
      = cf (reverseBitsLen k x) :=
    idft_half k ω ωinv h1 h2 hinv hh cf
  have hcoset : ∀ (s' : F), coset_dft_col k ω s'
      (divide_by_height (2 ^ k)
        (dft_batch_col k ωinv
          (fun r => ∑ m ∈ Finset.range (2 ^ k), cf m * ω ^ (r * m)))) i
      = ∑ m ∈ Finset.range (2 ^ k), cf m * s' ^ m * ω ^ (reverseBitsLen k i * m) := by
    intro s'
    rw [coset_dft_col_eq_network k ω s' _ i hi]
    rw [twoHalfNetwork_congrOn k (k / 2) (Nat.div_le_self _ _) ω s' _
      (fun x => cf (reverseBitsLen k x)) hu i hi]
    exact twoHalfNetwork_eval k (k / 2) (Nat.div_le_self _ _) ω s' h1 h2 cf i hi
  rw [show coset_lde_batch_col k add ωinv ω gBig s
      (fun r => ∑ m ∈ Finset.range (2 ^ k), cf m * ω ^ (r * m))
      (reverseBitsLen add j * 2 ^ k + i)
    = (if (reverseBitsLen add j * 2 ^ k + i) / 2 ^ k = 0 then
        coset_dft_col k ω s
          (divide_by_height (2 ^ k)
            (dft_batch_col k ωinv
              (fun r => ∑ m ∈ Finset.range (2 ^ k), cf m * ω ^ (r * m))))
          ((reverseBitsLen add j * 2 ^ k + i) % 2 ^ k)
      else
        coset_dft_col k ω
          (gBig ^ reverseBitsLen add ((reverseBitsLen add j * 2 ^ k + i) / 2 ^ k) * s)
          (divide_by_height (2 ^ k)
            (dft_batch_col k ωinv
              (fun r => ∑ m ∈ Finset.range (2 ^ k), cf m * ω ^ (r * m))))
          ((reverseBitsLen add j * 2 ^ k + i) % 2 ^ k)) from rfl]
  rw [hdiv, hmod]
  by_cases hc : reverseBitsLen add j = 0
  · rw [if_pos hc]
    have hj0 : j = 0 := by
      have := reverseBitsLen_reverseBitsLen add j hj
      rw [hc, reverseBitsLen_zero] at this
      omega
    subst hj0
    rw [hcoset s]
    apply Finset.sum_congr rfl
    intro m hm
    rw [pow_zero, one_mul, mul_pow]
    ring
  · rw [if_neg hc]
    rw [reverseBitsLen_reverseBitsLen add j hj]
    rw [hcoset (gBig ^ j * s)]
    apply Finset.sum_congr rfl
    intro m hm
    rw [mul_pow (gBig ^ j * s)]
    ring

/-- Witness for C6 over `ZMod 17` with `log_n = k = 1`, `added_bits = 1`,
`ω = 16 = -1` (order 2), `g_big = 4` (order 4, `4^2 = 16`), shift `3`,
coset `j = 1`, row `i = 1`. -/
theorem coset_lde_batch_evaluates_witness :
    ((16 : ZMod 17) ^ 2 ^ 1 = 1 ∧ (0 < 1 → (16 : ZMod 17) ^ 2 ^ (1 - 1) = -1) ∧
      (16 : ZMod 17) * 16 = 1 ∧ ((2 ^ 1 : Nat) : ZMod 17) ≠ 0 ∧
      (4 : ZMod 17) ^ 2 ^ 1 = 16 ∧ 1 < 2 ^ 1 ∧ 1 < 2 ^ 1) ∧
    coset_lde_batch_col 1 1 (16 : ZMod 17) 16 4 3
        (fun r => ∑ m ∈ Finset.range (2 ^ 1), ((m : ZMod 17) + 2) * (16 : ZMod 17) ^ (r * m))
        (reverseBitsLen 1 1 * 2 ^ 1 + 1)
      = ∑ m ∈ Finset.range (2 ^ 1),
          ((m : ZMod 17) + 2) * ((4 : ZMod 17) ^ 1 * 3 * (16 : ZMod 17) ^ reverseBitsLen 1 1) ^ m :=
  ⟨⟨by decide, fun _ => by decide, by decide, by decide, by decide, by decide, by decide⟩,
    coset_lde_batch_evaluates 1 1 (16 : ZMod 17) 16 4 3 (by decide) (fun _ => by decide)
      (by decide) (by decide) (by decide) (fun m => (m : ZMod 17) + 2) 1 (by decide)
      1 (by decide)⟩

end CosetLdeMain

section Caches

variable {F : Type} [Field F] [Inhabited F] [DecidableEq F]

/-- `BTreeMap::entry(key).or_insert_with(compute)` on the `RefCell<BTreeMap<…>>`
twiddle caches of `Radix2DitParallel` (`src/dft/src/radix_2_dit_parallel.rs`,
lines 27–38): return the memoized value if the key is present, otherwise run the
closure, insert the result and return it.  The map is modelled as an association
list; the returned pair is (fetched value, updated map). -/
def or_insert_with {K V : Type} [DecidableEq K] (cache : List (K × V)) (key : K)
    (f : Unit → V) : V × List (K × V) :=
  match cache.find? (fun kv => decide (kv.1 = key)) with
  | some kv => (kv.2, cache)
  | none => (f (), cache ++ [(key, f ())])

/-- A cache is well formed for a computation when every memoized entry equals the
value the `or_insert_with` closure would compute for its key.  Every cache state
reachable through the engine's public API has this shape: the `BTreeMap`s start
empty and are only ever extended by `entry(key).or_insert_with(|| compute(key))`. -/
def CacheWF {K V : Type} (compute : K → V) (cache : List (K × V)) : Prop :=
  ∀ kv ∈ cache, kv.2 = compute kv.1

theorem or_insert_with_wf {K V : Type} [DecidableEq K] (compute : K → V)
    (cache : List (K × V)) (hwf : CacheWF compute cache) (key : K)
    (f : Unit → V) (v : V) (hfv : f () = v) (hvc : v = compute key) :
    (or_insert_with cache key f).1 = v ∧
      CacheWF compute (or_insert_with cache key f).2 := by
  unfold or_insert_with
  cases hfind : cache.find? (fun kv => decide (kv.1 = key)) with
  | none =>
    refine ⟨hfv, ?_⟩
    intro kv hkv
    rcases List.mem_append.mp hkv with hmem | hmem
    · exact hwf kv hmem
    · rw [List.mem_singleton.mp hmem, hfv, hvc]
  | some kv0 =>
    have h0 := List.find?_some hfind
    have h1 : kv0.1 = key := of_decide_eq_true h0
    have h2 : kv0 ∈ cache := List.mem_of_find?_eq_some hfind
    exact ⟨by show kv0.2 = v; rw [hwf kv0 h2, h1, ← hvc], hwf⟩

/-- The `Radix2DitParallel` engine (`src/dft/src/radix_2_dit_parallel.rs`,
lines 27–38): three memoized twiddle caches behind `RefCell<BTreeMap<…>>`,
modelled as association lists — forward twiddles keyed by `log_h`, coset
twiddles keyed by `(log_h, shift)`, inverse twiddles keyed by `log_h`. -/
structure Radix2DitParallel (F : Type) where
  twiddles : List (Nat × (List F × List F))
  coset_twiddles : List ((Nat × F) × List (List F))
  inverse_twiddles : List (Nat × (List F × List F))

/-- `dft_batch` (lines 102–123) with the memoization made explicit: fetch (or
compute and insert) the twiddles for `log_h = k` from the engine's cache
(`gen log_h` models `F::two_adic_generator(log_h)` inside `compute_twiddles`),
run the two-half network exactly as in `dft_batch_col`, and return the output
column together with the updated engine. -/
def dft_batch_cached (gen : Nat → F) (k : Nat) (dft : Radix2DitParallel F)
    (a : Nat → F) : (Nat → F) × Radix2DitParallel F :=
  let f := or_insert_with dft.twiddles k (fun _ => compute_twiddles k (gen k))
  let mid := k / 2
  ⟨par_dit_layer_rev k mid f.1.2
      (bitReversePerm k (par_dit_layer k mid f.1.1 (bitReversePerm k a))),
    ⟨f.2, dft.coset_twiddles, dft.inverse_twiddles⟩⟩

/-- The body of `coset_dft` as a function of the fetched twiddle slices (the
`tws`-generic form of `coset_dft_col`). -/
def coset_dft_col_tw (logH : Nat) (tws : List (List F)) (v : Nat → F) : Nat → F :=
  let mid := logH / 2
  (List.range (logH - mid)).foldl
    (fun w kk => ditLayerRev (logH - 1 - (mid + kk))
      (fun b => (tws.getD (logH - 1 - (mid + kk)) []).getD b 0) w)
    (bitReversePerm logH
      ((List.range mid).foldl
        (fun w l => ditLayer l (fun p => (tws.getD (logH - 1 - l) []).getD p 0) w) v))

/-- `coset_dft` (lines 209–254) with the memoization made explicit: fetch (or
compute and insert) the coset twiddles for key `(log_h, shift)`, then run the
layers of `coset_dft_col` with them. -/
def coset_dft_cached (gen : Nat → F) (k : Nat) (shift : F)
    (cache : List ((Nat × F) × List (List F))) (v : Nat → F) :
    (Nat → F) × List ((Nat × F) × List (List F)) :=
  let fc := or_insert_with cache (k, shift)
    (fun _ => compute_coset_twiddles k (gen k) shift)
  ⟨coset_dft_col_tw k fc.1 v, fc.2⟩

/-- One iteration of the coset loop of `coset_lde_batch` (lines 170–196):
coset `coset_idx = c0 + 1` is transformed with
`total_shift = g_big^coset_idx * shift` and stored at block
`reverse_bits_len(coset_idx, added_bits)`; the coset-twiddle cache is threaded
through in loop order. -/
def cosetLoopStep (gen : Nat → F) (k addedBits : Nat) (gBig shift : F)
    (u : Nat → F) (st : (Nat → Nat → F) × List ((Nat × F) × List (List F)))
    (c0 : Nat) : (Nat → Nat → F) × List ((Nat × F) × List (List F)) :=
  let fc := coset_dft_cached gen k (gBig ^ (c0 + 1) * shift) st.2 u
  ⟨fun c => if c = reverseBitsLen addedBits (c0 + 1) then fc.1 else st.1 c, fc.2⟩

/-- The tail of `coset_lde_batch` after the inverse half: the loop over cosets
`1..2^added_bits` (each into its bit-reversed block), then coset `0` in place
with shift `shift`; returns the stored column (block `c`, row `i` at index
`c·2^k + i`) and the updated coset-twiddle cache. -/
def coset_lde_tail (gen : Nat → F) (k addedBits : Nat) (shift : F)
    (u : Nat → F) (cosetCache : List ((Nat × F) × List (List F))) :
    (Nat → F) × List ((Nat × F) × List (List F)) :=
  let loop := (List.range (2 ^ addedBits - 1)).foldl
    (cosetLoopStep gen k addedBits (gen (k + addedBits)) shift u)
    ⟨fun _ _ => 0, cosetCache⟩
  let f0 := coset_dft_cached gen k shift loop.2 u
  ⟨fun idx => if idx / 2 ^ k = 0 then f0.1 (idx % 2 ^ k)
    else loop.1 (idx / 2 ^ k) (idx % 2 ^ k), f0.2⟩

/-- `coset_lde_batch` (lines 125–206) with all three memoizations explicit: the
inverse half fetches the inverse twiddles for `log_h` (computed from
`F::two_adic_generator(log_h).inverse()`), is followed by `divide_by_height`,
and the coset loop threads the coset-twiddle cache; returns the stored column
and the updated engine. -/
def coset_lde_batch_cached (gen : Nat → F) (k addedBits : Nat) (shift : F)
    (dft : Radix2DitParallel F) (a : Nat → F) :
    (Nat → F) × Radix2DitParallel F :=
  let fi := or_insert_with dft.inverse_twiddles k
    (fun _ => compute_twiddles k ((gen k))⁻¹)
  let u := divide_by_height (2 ^ k)
    (par_dit_layer_rev k (k / 2) fi.1.2
      (bitReversePerm k (par_dit_layer k (k / 2) fi.1.1 (bitReversePerm k a))))
  let t := coset_lde_tail gen k addedBits shift u dft.coset_twiddles
  ⟨t.1, ⟨dft.twiddles, t.2, fi.2⟩⟩

/-- All three caches of the engine are well formed for their respective
`or_insert_with` closures; this characterises every engine state reachable
through the API, the fresh engine (`Default`: three empty maps) included. -/
def EngineWF (gen : Nat → F) (dft : Radix2DitParallel F) : Prop :=
  CacheWF (fun lh => compute_twiddles lh (gen lh)) dft.twiddles ∧
  CacheWF (fun key : Nat × F => compute_coset_twiddles key.1 (gen key.1) key.2)
    dft.coset_twiddles ∧
  CacheWF (fun lh => compute_twiddles lh ((gen lh))⁻¹) dft.inverse_twiddles

theorem dft_batch_cached_eq (gen : Nat → F) (k : Nat) (dft : Radix2DitParallel F)
    (hwf : CacheWF (fun lh => compute_twiddles lh (gen lh)) dft.twiddles)
    (a : Nat → F) :
    (dft_batch_cached gen k dft a).1 = dft_batch_col k (gen k) a ∧
      CacheWF (fun lh => compute_twiddles lh (gen lh))
        (dft_batch_cached gen k dft a).2.twiddles := by
  have h := or_insert_with_wf (fun lh => compute_twiddles lh (gen lh)) dft.twiddles
    hwf k (fun _ => compute_twiddles k (gen k)) (compute_twiddles k (gen k)) rfl rfl
  refine ⟨?_, h.2⟩
  exact (congrArg (fun tw : List F × List F => par_dit_layer_rev k (k / 2) tw.2
    (bitReversePerm k (par_dit_layer k (k / 2) tw.1 (bitReversePerm k a)))) h.1).trans rfl

theorem coset_dft_cached_eq (gen : Nat → F) (k : Nat) (shift : F)
    (cache : List ((Nat × F) × List (List F)))
    (hwf : CacheWF (fun key : Nat × F => compute_coset_twiddles key.1 (gen key.1) key.2)
      cache) (u : Nat → F) :
    (coset_dft_cached gen k shift cache u).1 = coset_dft_col k (gen k) shift u ∧
      CacheWF (fun key : Nat × F => compute_coset_twiddles key.1 (gen key.1) key.2)
        (coset_dft_cached gen k shift cache u).2 := by
  have h := or_insert_with_wf
    (fun key : Nat × F => compute_coset_twiddles key.1 (gen key.1) key.2) cache hwf
    (k, shift) (fun _ => compute_coset_twiddles k (gen k) shift)
    (compute_coset_twiddles k (gen k) shift) rfl rfl
  exact ⟨(congrArg (fun tws => coset_dft_col_tw k tws u) h.1).trans rfl, h.2⟩

theorem cosetLoop_congr (gen : Nat → F) (k addedBits : Nat) (gBig shift : F)
    (u : Nat → F) (l : List Nat) :
    ∀ (st1 st2 : (Nat → Nat → F) × List ((Nat × F) × List (List F))),
      st1.1 = st2.1 →
      CacheWF (fun key : Nat × F => compute_coset_twiddles key.1 (gen key.1) key.2)
        st1.2 →
      CacheWF (fun key : Nat × F => compute_coset_twiddles key.1 (gen key.1) key.2)
        st2.2 →
      (l.foldl (cosetLoopStep gen k addedBits gBig shift u) st1).1
        = (l.foldl (cosetLoopStep gen k addedBits gBig shift u) st2).1 ∧
      CacheWF (fun key : Nat × F => compute_coset_twiddles key.1 (gen key.1) key.2)
        (l.foldl (cosetLoopStep gen k addedBits gBig shift u) st1).2 ∧
      CacheWF (fun key : Nat × F => compute_coset_twiddles key.1 (gen key.1) key.2)
        (l.foldl (cosetLoopStep gen k addedBits gBig shift u) st2).2 := by
  induction l with
  | nil => intro st1 st2 hst h1 h2; exact ⟨hst, h1, h2⟩
  | cons x xs ih =>
    intro st1 st2 hst h1 h2
    simp only [List.foldl_cons]
    have e1 := coset_dft_cached_eq gen k (gBig ^ (x + 1) * shift) st1.2 h1 u
    have e2 := coset_dft_cached_eq gen k (gBig ^ (x + 1) * shift) st2.2 h2 u
    refine ih (cosetLoopStep gen k addedBits gBig shift u st1 x)
      (cosetLoopStep gen k addedBits gBig shift u st2 x) ?_ e1.2 e2.2
    show (fun c => if c = reverseBitsLen addedBits (x + 1)
        then (coset_dft_cached gen k (gBig ^ (x + 1) * shift) st1.2 u).1 else st1.1 c)
      = (fun c => if c = reverseBitsLen addedBits (x + 1)
        then (coset_dft_cached gen k (gBig ^ (x + 1) * shift) st2.2 u).1 else st2.1 c)
    rw [e1.1, e2.1, hst]

theorem coset_lde_tail_congr (gen : Nat → F) (k addedBits : Nat) (shift : F)
    (u : Nat → F) (c1 c2 : List ((Nat × F) × List (List F)))
    (h1 : CacheWF (fun key : Nat × F => compute_coset_twiddles key.1 (gen key.1) key.2)
      c1)
    (h2 : CacheWF (fun key : Nat × F => compute_coset_twiddles key.1 (gen key.1) key.2)
      c2) :
    (coset_lde_tail gen k addedBits shift u c1).1
      = (coset_lde_tail gen k addedBits shift u c2).1 ∧
    CacheWF (fun key : Nat × F => compute_coset_twiddles key.1 (gen key.1) key.2)
      (coset_lde_tail gen k addedBits shift u c1).2 := by
  obtain ⟨hLeq, hLw1, hLw2⟩ := cosetLoop_congr gen k addedBits (gen (k + addedBits))
    shift u (List.range (2 ^ addedBits - 1))
    ⟨fun _ _ => 0, c1⟩ ⟨fun _ _ => 0, c2⟩ rfl h1 h2
  have e1 := coset_dft_cached_eq gen k shift
    ((List.range (2 ^ addedBits - 1)).foldl
      (cosetLoopStep gen k addedBits (gen (k + addedBits)) shift u)
      ⟨fun _ _ => 0, c1⟩).2 hLw1 u
  have e2 := coset_dft_cached_eq gen k shift
    ((List.range (2 ^ addedBits - 1)).foldl
      (cosetLoopStep gen k addedBits (gen (k + addedBits)) shift u)
      ⟨fun _ _ => 0, c2⟩).2 hLw2 u
  refine ⟨?_, e1.2⟩
  show (fun idx => if idx / 2 ^ k = 0
      then (coset_dft_cached gen k shift
        ((List.range (2 ^ addedBits - 1)).foldl
          (cosetLoopStep gen k addedBits (gen (k + addedBits)) shift u)
          ⟨fun _ _ => 0, c1⟩).2 u).1 (idx % 2 ^ k)
      else ((List.range (2 ^ addedBits - 1)).foldl
          (cosetLoopStep gen k addedBits (gen (k + addedBits)) shift u)
          ⟨fun _ _ => 0, c1⟩).1 (idx / 2 ^ k) (idx % 2 ^ k))
    = (fun idx => if idx / 2 ^ k = 0
      then (coset_dft_cached gen k shift
        ((List.range (2 ^ addedBits - 1)).foldl
          (cosetLoopStep gen k addedBits (gen (k + addedBits)) shift u)
          ⟨fun _ _ => 0, c2⟩).2 u).1 (idx % 2 ^ k)
      else ((List.range (2 ^ addedBits - 1)).foldl
          (cosetLoopStep gen k addedBits (gen (k + addedBits)) shift u)
          ⟨fun _ _ => 0, c2⟩).1 (idx / 2 ^ k) (idx % 2 ^ k))
  rw [e1.1, e2.1, hLeq]

theorem coset_lde_batch_cached_congr (gen : Nat → F) (k addedBits : Nat) (shift : F)
    (a : Nat → F) (dft1 dft2 : Radix2DitParallel F)
    (h1c : CacheWF (fun key : Nat × F => compute_coset_twiddles key.1 (gen key.1) key.2)
      dft1.coset_twiddles)
    (h2c : CacheWF (fun key : Nat × F => compute_coset_twiddles key.1 (gen key.1) key.2)
      dft2.coset_twiddles)
    (h1i : CacheWF (fun lh => compute_twiddles lh ((gen lh))⁻¹) dft1.inverse_twiddles)
    (h2i : CacheWF (fun lh => compute_twiddles lh ((gen lh))⁻¹) dft2.inverse_twiddles) :
    (coset_lde_batch_cached gen k addedBits shift dft1 a).1
      = (coset_lde_batch_cached gen k addedBits shift dft2 a).1 ∧
    CacheWF (fun key : Nat × F => compute_coset_twiddles key.1 (gen key.1) key.2)
      (coset_lde_batch_cached gen k addedBits shift dft1 a).2.coset_twiddles ∧
    CacheWF (fun lh => compute_twiddles lh ((gen lh))⁻¹)
      (coset_lde_batch_cached gen k addedBits shift dft1 a).2.inverse_twiddles := by
  have hi1 := or_insert_with_wf (fun lh => compute_twiddles lh ((gen lh))⁻¹)
    dft1.inverse_twiddles h1i k (fun _ => compute_twiddles k ((gen k))⁻¹)
    (compute_twiddles k ((gen k))⁻¹) rfl rfl
  have hi2 := or_insert_with_wf (fun lh => compute_twiddles lh ((gen lh))⁻¹)
    dft2.inverse_twiddles h2i k (fun _ => compute_twiddles k ((gen k))⁻¹)
    (compute_twiddles k ((gen k))⁻¹) rfl rfl
  refine ⟨?_, ?_, hi1.2⟩
  · show (coset_lde_tail gen k addedBits shift
        (divide_by_height (2 ^ k)
          (par_dit_layer_rev k (k / 2)
            (or_insert_with dft1.inverse_twiddles k
              (fun _ => compute_twiddles k ((gen k))⁻¹)).1.2
            (bitReversePerm k (par_dit_layer k (k / 2)
              (or_insert_with dft1.inverse_twiddles k
                (fun _ => compute_twiddles k ((gen k))⁻¹)).1.1
              (bitReversePerm k a)))))
        dft1.coset_twiddles).1
      = (coset_lde_tail gen k addedBits shift
        (divide_by_height (2 ^ k)
          (par_dit_layer_rev k (k / 2)
            (or_insert_with dft2.inverse_twiddles k
              (fun _ => compute_twiddles k ((gen k))⁻¹)).1.2
            (bitReversePerm k (par_dit_layer k (k / 2)
              (or_insert_with dft2.inverse_twiddles k
                (fun _ => compute_twiddles k ((gen k))⁻¹)).1.1
              (bitReversePerm k a)))))
        dft2.coset_twiddles).1
    rw [hi1.1, hi2.1]
    exact (coset_lde_tail_congr gen k addedBits shift
      (divide_by_height (2 ^ k)
        (par_dit_layer_rev k (k / 2) (compute_twiddles k ((gen k))⁻¹).2
          (bitReversePerm k (par_dit_layer k (k / 2)
            (compute_twiddles k ((gen k))⁻¹).1 (bitReversePerm k a)))))
      dft1.coset_twiddles dft2.coset_twiddles h1c h2c).1
  · exact (coset_lde_tail_congr gen k addedBits shift
      (divide_by_height (2 ^ k)
        (par_dit_layer_rev k (k / 2)
          (or_insert_with dft1.inverse_twiddles k
            (fun _ => compute_twiddles k ((gen k))⁻¹)).1.2
          (bitReversePerm k (par_dit_layer k (k / 2)
            (or_insert_with dft1.inverse_twiddles k
              (fun _ => compute_twiddles k ((gen k))⁻¹)).1.1
            (bitReversePerm k a)))))
      dft1.coset_twiddles dft1.coset_twiddles h1c h1c).2

/-- **C9.**  Determinism / cache-transparency of the engine: `dft_batch` and
`coset_lde_batch` on a well-formed engine (every memoized entry equals the value
its `or_insert_with` closure computes — the shape of every engine state reachable
through the API, since the `BTreeMap`s start empty and only ever receive computed
values) return exactly the output of a fresh engine with all three caches empty
(for `dft_batch`, the pure `dft_batch_col`), and leave the engine well formed;
hence any two calls with equal inputs yield equal outputs regardless of the prior
contents of the memoized twiddle caches. -/
theorem engine_cache_deterministic {F : Type} [Field F] [Inhabited F] [DecidableEq F]
    (gen : Nat → F) (k addedBits : Nat) (shift : F) (a : Nat → F)
    (dft : Radix2DitParallel F) (hwf : EngineWF gen dft) :
    ((dft_batch_cached gen k dft a).1 = (dft_batch_cached gen k ⟨[], [], []⟩ a).1 ∧
      (dft_batch_cached gen k dft a).1 = dft_batch_col k (gen k) a ∧
      EngineWF gen (dft_batch_cached gen k dft a).2) ∧
    ((coset_lde_batch_cached gen k addedBits shift dft a).1
        = (coset_lde_batch_cached gen k addedBits shift ⟨[], [], []⟩ a).1 ∧
      EngineWF gen (coset_lde_batch_cached gen k addedBits shift dft a).2) := by
  obtain ⟨hwt, hwc, hwi⟩ := hwf
  have het : CacheWF (fun lh => compute_twiddles lh (gen lh))
      ([] : List (Nat × (List F × List F))) := fun kv h => absurd h (List.not_mem_nil kv)
  have hec : CacheWF
      (fun key : Nat × F => compute_coset_twiddles key.1 (gen key.1) key.2)
      ([] : List ((Nat × F) × List (List F))) := fun kv h => absurd h (List.not_mem_nil kv)
  have hei : CacheWF (fun lh => compute_twiddles lh ((gen lh))⁻¹)
      ([] : List (Nat × (List F × List F))) := fun kv h => absurd h (List.not_mem_nil kv)
  have d1 := dft_batch_cached_eq gen k dft hwt a
  have d2 := dft_batch_cached_eq gen k ⟨[], [], []⟩ het a
  have c1 := coset_lde_batch_cached_congr gen k addedBits shift a dft ⟨[], [], []⟩
    hwc hec hwi hei
  exact ⟨⟨d1.1.trans d2.1.symm, d1.1, d1.2, hwc, hwi⟩, c1.1, hwt, c1.2.1, c1.2.2⟩

/-- Witness for C9 over `ZMod 5`: a warm engine whose forward cache already
holds the `log_h = 0` twiddles gives the same `dft_batch` and `coset_lde_batch`
outputs as the fresh engine with three empty caches, and stays well formed. -/
theorem engine_cache_deterministic_witness :
    ((dft_batch_cached (fun _ => (1 : ZMod 5)) 0
        ⟨[(0, compute_twiddles 0 (1 : ZMod 5))], [], []⟩ (fun _ => 2)).1
      = (dft_batch_cached (fun _ => (1 : ZMod 5)) 0 ⟨[], [], []⟩ (fun _ => 2)).1 ∧
      (dft_batch_cached (fun _ => (1 : ZMod 5)) 0
        ⟨[(0, compute_twiddles 0 (1 : ZMod 5))], [], []⟩ (fun _ => 2)).1
      = dft_batch_col 0 (1 : ZMod 5) (fun _ => 2) ∧
      EngineWF (fun _ => (1 : ZMod 5))
        (dft_batch_cached (fun _ => (1 : ZMod 5)) 0
          ⟨[(0, compute_twiddles 0 (1 : ZMod 5))], [], []⟩ (fun _ => 2)).2) ∧
    ((coset_lde_batch_cached (fun _ => (1 : ZMod 5)) 0 1 3
        ⟨[(0, compute_twiddles 0 (1 : ZMod 5))], [], []⟩ (fun _ => 2)).1
      = (coset_lde_batch_cached (fun _ => (1 : ZMod 5)) 0 1 3
          ⟨[], [], []⟩ (fun _ => 2)).1 ∧
      EngineWF (fun _ => (1 : ZMod 5))
        (coset_lde_batch_cached (fun _ => (1 : ZMod 5)) 0 1 3
          ⟨[(0, compute_twiddles 0 (1 : ZMod 5))], [], []⟩ (fun _ => 2)).2) :=
  engine_cache_deterministic (fun _ => (1 : ZMod 5)) 0 1 3 (fun _ => 2)
    ⟨[(0, compute_twiddles 0 (1 : ZMod 5))], [], []⟩
    ⟨fun kv h => by rw [List.mem_singleton.mp h],
     fun kv h => absurd h (List.not_mem_nil kv),
     fun kv h => absurd h (List.not_mem_nil kv)⟩

end Caches
